import Mathlib

/-!
Verification of the multiresolution chunk pyramid of the `building-blocks`
voxel storage engine (`crates/building_blocks_storage/src/multiresolution/chunk_pyramid.rs`).

Integer points (`PointN<N>` with `i32` components) are embedded as functions
`Fin n → Int`.  Rust `i32` arithmetic is embedded over `Int`:
`>>` is the arithmetic shift (floor division by a power of two), `<<` is
multiplication by a power of two (overflow is a caller precondition per the
crate's geometry contract, so it is not wrapped), `%` is Rust's truncated
remainder `Int.tmod`, `/` is Rust's truncated division `Int.tdiv`, and
`i32::trailing_zeros` counts trailing zero bits of the 32-bit two's-complement
bit pattern.
-/

namespace BuildingBlocks

/-- Arithmetic shift right of an `i32` value by `k` bits: floor division by `2^k`. -/
def sar (x : Int) (k : Nat) : Int := Int.fdiv x (2 ^ k)

/-- Shift left of an `i32` value by `k` bits: multiplication by `2^k`
(overflow is a documented caller precondition of the geometry layer, so the
embedding does not wrap). -/
def shl (x : Int) (k : Nat) : Int := x * 2 ^ k

/-- Number of trailing zero bits of a natural number below `2^fuel`, with
`0 ↦ 32` (the `u32::trailing_zeros` value of a 32-bit zero); recursion is
structural on the fuel, which 32 bits never exhaust. -/
def tzFuel : Nat → Nat → Nat
  | 0, _ => 32
  | fuel + 1, m => if m = 0 then 32 else if m % 2 = 0 then tzFuel fuel (m / 2) + 1 else 0

/-- `i32::trailing_zeros`: trailing zero bits of the 32-bit two's-complement
bit pattern of `x`. -/
def i32TrailingZeros (x : Int) : Nat := tzFuel 32 (Int.toNat (Int.emod x (2 ^ 32)))

/-- An `N`-dimensional point of `i32` components. -/
def PointN (n : Nat) : Type := Fin n → Int

instance (n : Nat) : DecidableEq (PointN n) :=
  fun p q => Fintype.decidablePiFintype p q

/-- The zero point. -/
def pzero (n : Nat) : PointN n := fun _ => 0

/-- Scale a point by an integer scalar. -/
def pscale (n : Nat) (c : Int) (p : PointN n) : PointN n := fun i => c * p i

/-- Component-wise Rust `/` (truncated division) of a point by a scalar. -/
def pdivScalar (n : Nat) (p : PointN n) (c : Int) : PointN n := fun i => Int.tdiv (p i) c

/-- Component-wise arithmetic shift right of a point by a scalar bit count. -/
def psar (n : Nat) (p : PointN n) (k : Nat) : PointN n := fun i => sar (p i) k

/-- `DownsampleDestination<N>`: where a source chunk's samples land one or
more levels up the pyramid. -/
structure DownsampleDestination (n : Nat) where
  dst_chunk_key : PointN n
  dst_offset : PointN n
deriving DecidableEq

/-- `DownsampleDestination::for_source_chunk(chunk_shape, src_chunk_key, lod_delta)`,
embedded line by line from the source:
`chunk_shape_log2 = chunk_shape.map_components_unary(|c| c.trailing_zeros() as i32)`,
`level_up_log2 = chunk_shape_log2 + ONES * lod_delta`,
`level_up_shape = chunk_shape << lod_delta`,
`dst_chunk_key = (src_chunk_key >> level_up_log2) << chunk_shape_log2`,
`offset = src_chunk_key % level_up_shape`,
`dst_offset = offset >> lod_delta`.
Point-valued shift amounts shift each component by the corresponding
component, converted with `Int.toNat` (a negative shift amount is a Rust
panic; it never occurs because trailing-zero counts are non-negative). -/
def for_source_chunk (n : Nat) (chunk_shape src_chunk_key : PointN n) (lod_delta : Nat) :
    DownsampleDestination n :=
  let chunk_shape_log2 : PointN n := fun i => (i32TrailingZeros (chunk_shape i) : Int)
  let level_up_log2 : PointN n := fun i => chunk_shape_log2 i + (lod_delta : Int)
  let level_up_shape : PointN n := fun i => shl (chunk_shape i) lod_delta
  let dst_chunk_key : PointN n :=
    fun i => shl (sar (src_chunk_key i) (level_up_log2 i).toNat) (chunk_shape_log2 i).toNat
  let offset : PointN n := fun i => Int.tmod (src_chunk_key i) (level_up_shape i)
  let dst_offset : PointN n := fun i => sar (offset i) lod_delta
  ⟨dst_chunk_key, dst_offset⟩

/-- The spec's description of the same computation, written with the
component-wise base-2 logarithm of the chunk shape in place of the code's
trailing-zero count. -/
def forSourceChunkSpec (n : Nat) (chunk_shape src_chunk_key : PointN n) (lod_delta : Nat) :
    DownsampleDestination n :=
  ⟨fun i => shl (sar (src_chunk_key i) (Nat.log2 (chunk_shape i).toNat + lod_delta))
      (Nat.log2 (chunk_shape i).toNat),
   fun i => sar (Int.tmod (src_chunk_key i) (shl (chunk_shape i) lod_delta)) lod_delta⟩

/-- A chunk shape is valid when every component is a power of two expressible
as a positive `i32`, i.e. `2^k` with `k ≤ 30`. -/
def PowTwoShape (n : Nat) (chunk_shape : PointN n) : Prop :=
  ∀ i, ∃ k ≤ 30, chunk_shape i = 2 ^ k

/-! ## Chunk maps and the pyramid

`ChunkMap`, `Chunk`, `ArrayN`, `ExtentN` and the `ChunkDownsampler`
capability live outside the pyramid source file; they are modelled from the
spec (each such definition says so).  The pyramid operations themselves are
embedded from `chunk_pyramid.rs`. -/

/-- Modelled from the spec: an `ExtentN` is a minimum corner plus a
non-negative shape, representing the inclusive-exclusive box
`[minimum, minimum + shape)`. -/
structure ExtentN (n : Nat) where
  minimum : PointN n
  shape : PointN n

/-- Point containment in an extent. -/
def ExtentN.containsPt {n : Nat} (e : ExtentN n) (p : PointN n) : Prop :=
  ∀ i, e.minimum i ≤ p i ∧ p i < e.minimum i + e.shape i

instance {n : Nat} (e : ExtentN n) (p : PointN n) : Decidable (e.containsPt p) :=
  Fintype.decidableForallFintype

/-- Modelled from the spec: a dense array of voxel values over an extent;
`values p` is the voxel at world point `p` (meaningful for `p` inside the
extent). -/
structure ArrayN (n : Nat) (T : Type) where
  extent : ExtentN n
  values : PointN n → T

/-- Modelled from the spec (`Array::fill_extent` is not in the given
sources): writes `value` at every voxel of `e` that lies within the array's
own extent. -/
def ArrayN.fill_extent {n : Nat} {T : Type} (a : ArrayN n T) (e : ExtentN n) (value : T) :
    ArrayN n T :=
  ⟨a.extent, fun p => if e.containsPt p ∧ a.extent.containsPt p then value else a.values p⟩

/-- Modelled from the spec: the `ChunkDownsampler` capability is a
reduction policy; `reduce lod_delta block` maps the `2^lod_delta`-wide block
of source voxels (`block w` for `0 ≤ w < 2^lod_delta` component-wise) to one
destination voxel value. -/
structure ChunkDownsampler (n : Nat) (T : Type) where
  reduce : Nat → (PointN n → T) → T

/-- The spec's downsampler contract: the reduction reads only the
`2^lod_delta`-wide block it is handed. -/
def ChunkDownsampler.BlockConfined {n : Nat} {T : Type} (samp : ChunkDownsampler n T) : Prop :=
  ∀ (d : Nat) (f g : PointN n → T),
    (∀ w : PointN n, (∀ i, 0 ≤ w i ∧ w i < 2 ^ d) → f w = g w) →
      samp.reduce d f = samp.reduce d g

/-- Modelled from the spec: `downsample(src, dst, dst_offset, lod_delta)`
writes, for every destination voxel `u` with
`0 ≤ u < dst_shape >> lod_delta`, the reduction of the `2^lod_delta`-wide
source block at `2^lod_delta * u` to position `dst_offset + u` of the
destination array (clipped to the destination extent); all other
destination voxels are untouched. -/
def ChunkDownsampler.downsample {n : Nat} {T : Type} (samp : ChunkDownsampler n T)
    (src : ArrayN n T) (dst : ArrayN n T) (dst_offset : PointN n) (lod_delta : Nat) :
    ArrayN n T :=
  ⟨dst.extent, fun p =>
    if (∀ i, 0 ≤ p i - dst.extent.minimum i - dst_offset i ∧
          p i - dst.extent.minimum i - dst_offset i < sar (dst.extent.shape i) lod_delta) ∧
        dst.extent.containsPt p then
      samp.reduce lod_delta (fun w =>
        src.values (fun i =>
          src.extent.minimum i + 2 ^ lod_delta * (p i - dst.extent.minimum i - dst_offset i) + w i))
    else dst.values p⟩

/-- Modelled from the spec: a chunk owns a dense voxel array and an opaque
metadata record. -/
structure Chunk (n : Nat) (T Meta : Type) where
  metadata : Meta
  array : ArrayN n T

/-- Modelled from the spec: a chunk-map builder holds the per-store
configuration: chunk shape, ambient value and default chunk metadata. -/
structure ChunkMapBuilder (n : Nat) (T Meta : Type) where
  chunk_shape : PointN n
  ambient_value : T
  default_chunk_metadata : Meta

/-- Modelled from the spec: a `ChunkMap` is a chunk indexer (its fixed
chunk shape), an ambient value, the default chunk metadata, and the keyed
chunk storage (an association list standing for the hash map). -/
structure ChunkMap (n : Nat) (T Meta : Type) where
  chunk_shape : PointN n
  ambient_value : T
  default_chunk_metadata : Meta
  chunks : List (PointN n × Chunk n T Meta)

/-- `ChunkMap::builder()`. -/
def ChunkMap.builder {n : Nat} {T Meta : Type} (m : ChunkMap n T Meta) :
    ChunkMapBuilder n T Meta :=
  ⟨m.chunk_shape, m.ambient_value, m.default_chunk_metadata⟩

/-- `ChunkMapBuilder::build_with_write_storage` applied to an empty storage
(`FnvHashMap::default()` / a fresh `CompressibleChunkStorage`). -/
def ChunkMapBuilder.build_with_write_storage_default {n : Nat} {T Meta : Type}
    (b : ChunkMapBuilder n T Meta) : ChunkMap n T Meta :=
  ⟨b.chunk_shape, b.ambient_value, b.default_chunk_metadata, []⟩

/-- Modelled from the spec: `get_mut_chunk` is a plain keyed lookup
(no implicit creation); the pyramid only reads through the reference it
returns. -/
def ChunkMap.get_mut_chunk {n : Nat} {T Meta : Type} (m : ChunkMap n T Meta)
    (key : PointN n) : Option (Chunk n T Meta) :=
  m.chunks.lookup key

/-- A fresh chunk at `key`: extent `[key, key + chunk_shape)`, every voxel
the ambient value, default metadata. -/
def ChunkMap.newAmbientChunk {n : Nat} {T Meta : Type} (m : ChunkMap n T Meta)
    (key : PointN n) : Chunk n T Meta :=
  ⟨m.default_chunk_metadata, ⟨⟨key, m.chunk_shape⟩, fun _ => m.ambient_value⟩⟩

/-- Modelled from the spec: `get_mut_chunk_or_insert_ambient` returns the
chunk at `key`, creating and inserting an ambient-filled chunk if absent.
Returns the chunk together with the updated map. -/
def ChunkMap.get_mut_chunk_or_insert_ambient {n : Nat} {T Meta : Type}
    (m : ChunkMap n T Meta) (key : PointN n) : Chunk n T Meta × ChunkMap n T Meta :=
  match m.chunks.lookup key with
  | some c => (c, m)
  | none =>
    let c := m.newAmbientChunk key
    (c, { m with chunks := (key, c) :: m.chunks })

/-- Write back a chunk obtained through `get_mut_chunk_or_insert_ambient`
after mutating it through the returned reference. -/
def ChunkMap.set_chunk {n : Nat} {T Meta : Type} (m : ChunkMap n T Meta) (key : PointN n)
    (c : Chunk n T Meta) : ChunkMap n T Meta :=
  { m with chunks := m.chunks.map (fun kv => if kv.1 = key then (key, c) else kv) }

/-- `ChunkPyramid<N, T, Meta, Store>`: the ordered list of per-LOD chunk
stores. -/
structure ChunkPyramid (n : Nat) (T Meta : Type) where
  levels : List (ChunkMap n T Meta)

/-- `ChunkPyramid::two_levels_mut(lod_a, lod_b)`, embedded from the source:
`let (head, tail) = self.levels.split_at_mut(lod_b as usize);`
`let map_a = &mut head[lod_a as usize];`
`let map_b = &mut tail[lod_b as usize - lod_a as usize - 1];`
`split_at_mut` panics when `lod_b` exceeds the list length, and indexing
panics out of bounds; panics are modelled as `none`. -/
def two_levels_mut {n : Nat} {T Meta : Type} (levels : List (ChunkMap n T Meta))
    (lod_a lod_b : Nat) : Option (ChunkMap n T Meta × ChunkMap n T Meta) :=
  if lod_b ≤ levels.length then
    let head := levels.take lod_b
    let tail := levels.drop lod_b
    match head[lod_a]?, tail[lod_b - lod_a - 1]? with
    | some map_a, some map_b => some (map_a, map_b)
    | _, _ => none
  else none

/-- The list index the second reference of `two_levels_mut` actually points
at: `tail` starts at `lod_b`, so `tail[lod_b - lod_a - 1]` is the level at
`lod_b + (lod_b - lod_a - 1) = 2 * lod_b - lod_a - 1`. -/
def two_levels_mut_b_index (lod_a lod_b : Nat) : Nat :=
  lod_b + (lod_b - lod_a - 1)

/-- `ChunkPyramid::downsample_chunk(sampler, src_chunk_key, src_lod, dst_lod)`,
embedded from the source: assert `dst_lod > src_lod`, borrow the two levels,
compute the `DownsampleDestination`, get-or-insert the destination chunk;
if the source chunk exists invoke the downsampler at `dst_offset`, otherwise
fill the extent of shape `chunk_shape >> 1` at the destination offset with
the source store's ambient value.  The mutated destination store is written
back at the index `two_levels_mut` borrowed (`2 * dst_lod - src_lod - 1`).
A panic (failed assert or out-of-range borrow) is modelled as `none`. -/
def downsample_chunk {n : Nat} {T Meta : Type} (pyr : ChunkPyramid n T Meta)
    (samp : ChunkDownsampler n T) (src_chunk_key : PointN n) (src_lod dst_lod : Nat) :
    Option (ChunkPyramid n T Meta) :=
  if dst_lod > src_lod then
    match two_levels_mut pyr.levels src_lod dst_lod with
    | none => none
    | some (src_map, dst_map) =>
      let lod_delta := dst_lod - src_lod
      let chunk_shape := src_map.chunk_shape
      let dst := for_source_chunk n chunk_shape src_chunk_key lod_delta
      let pair := dst_map.get_mut_chunk_or_insert_ambient dst.dst_chunk_key
      let dst_chunk := pair.1
      let dst_map1 := pair.2
      let new_array :=
        match src_map.get_mut_chunk src_chunk_key with
        | some src_chunk =>
          samp.downsample src_chunk.array dst_chunk.array dst.dst_offset lod_delta
        | none =>
          let dst_extent : ExtentN n :=
            ⟨fun i => dst_chunk.array.extent.minimum i + dst.dst_offset i, psar n chunk_shape 1⟩
          dst_chunk.array.fill_extent dst_extent src_map.ambient_value
      let dst_map2 := dst_map1.set_chunk dst.dst_chunk_key { dst_chunk with array := new_array }
      some ⟨pyr.levels.set (two_levels_mut_b_index src_lod dst_lod) dst_map2⟩
  else none

/-- The body of the `for dst_lod in 1..len` loop of
`downsample_chunk_all_lods`, over the explicit list of destination levels:
each step calls `downsample_chunk` with `src_lod = dst_lod - 1`, then shifts
the source key right by one bit. -/
def downsample_chunk_all_lods_aux {n : Nat} {T Meta : Type} (samp : ChunkDownsampler n T)
    (ds : List Nat) (src_chunk_key : PointN n) (pyr : ChunkPyramid n T Meta) :
    Option (ChunkPyramid n T Meta) :=
  match ds with
  | [] => some pyr
  | dst_lod :: rest =>
    match downsample_chunk pyr samp src_chunk_key (dst_lod - 1) dst_lod with
    | none => none
    | some pyr2 => downsample_chunk_all_lods_aux samp rest (psar n src_chunk_key 1) pyr2

/-- `ChunkPyramid::downsample_chunk_all_lods(sampler, lod0_chunk_key)`,
embedded from the source: `for dst_lod in 1..self.levels.len() as u8`
(the `as u8` cast reduces the length modulo 256; the public constructors
only build pyramids of at most 255 levels). -/
def downsample_chunk_all_lods {n : Nat} {T Meta : Type} (pyr : ChunkPyramid n T Meta)
    (samp : ChunkDownsampler n T) (lod0_chunk_key : PointN n) :
    Option (ChunkPyramid n T Meta) :=
  downsample_chunk_all_lods_aux samp (List.range' 1 (pyr.levels.length % 256 - 1))
    lod0_chunk_key pyr

/-- The integers `lo, lo+1, ..., hi-1`. -/
def intRange (lo hi : Int) : List Int := (List.range (hi - lo).toNat).map (fun j => lo + j)

/-- All lattice points of the box `[lo, hi)`, axis 0 slowest (a fixed,
deterministic row-major order). -/
def boxPoints : (n : Nat) → (lo hi : PointN n) → List (PointN n)
  | 0, _, _ => [fun i => Fin.elim0 i]
  | _ + 1, lo, hi =>
    (intRange (lo 0) (hi 0)).flatMap
      (fun x => (boxPoints _ (Fin.tail lo) (Fin.tail hi)).map (fun q => Fin.cons x q))

/-- Modelled from the spec: the chunk key owning a world point — floor
division by the chunk shape, re-expressed in voxel units (so keys are
component-wise multiples of the chunk shape). -/
def chunk_key_for_point (n : Nat) (chunk_shape p : PointN n) : PointN n :=
  fun i => Int.fdiv (p i) (chunk_shape i) * chunk_shape i

/-- Modelled from the spec: every chunk key whose chunk extent intersects
the given extent, enumerated in a fixed row-major order from the key of the
extent's minimum to the key of its last point, stepping by the chunk shape. -/
def chunk_keys_for_extent (n : Nat) (chunk_shape : PointN n) (e : ExtentN n) :
    List (PointN n) :=
  (boxPoints n (fun i => Int.fdiv (e.minimum i) (chunk_shape i))
      (fun i => Int.fdiv (e.minimum i + e.shape i - 1) (chunk_shape i) + 1)).map
    (fun q => fun i => q i * chunk_shape i)

/-- Modelled from the spec: the smallest extent covering every occupied
chunk's extent; a store with no chunks has no bounding extent (modelled
`none`, a panic in the source). -/
def ChunkMap.bounding_extent {n : Nat} {T Meta : Type} (m : ChunkMap n T Meta) :
    Option (ExtentN n) :=
  match m.chunks with
  | [] => none
  | (k, _) :: rest =>
    let keys := k :: rest.map Prod.fst
    let lo : PointN n := fun i => (keys.map (fun p => p i)).foldl min (k i)
    let hi : PointN n :=
      fun i => (keys.map (fun p => p i + m.chunk_shape i)).foldl max (k i + m.chunk_shape i)
    some ⟨lo, fun i => hi i - lo i⟩

/-- The body of the `for chunk_key in ...` loop of
`downsample_chunks_for_extent_all_lods`. -/
def downsample_extent_aux {n : Nat} {T Meta : Type} (samp : ChunkDownsampler n T)
    (keys : List (PointN n)) (pyr : ChunkPyramid n T Meta) :
    Option (ChunkPyramid n T Meta) :=
  match keys with
  | [] => some pyr
  | key :: rest =>
    match downsample_chunk_all_lods pyr samp key with
    | none => none
    | some pyr2 => downsample_extent_aux samp rest pyr2

/-- `ChunkPyramid::downsample_chunks_for_extent_all_lods(sampler, lod0_extent)`,
embedded from the source: clone LOD 0's indexer (`self.levels[0]` panics on
a pyramid with no levels, modelled `none`) and run the whole-pyramid
downsample for every LOD-0 chunk key of the extent. -/
def downsample_chunks_for_extent_all_lods {n : Nat} {T Meta : Type}
    (pyr : ChunkPyramid n T Meta) (samp : ChunkDownsampler n T) (lod0_extent : ExtentN n) :
    Option (ChunkPyramid n T Meta) :=
  match pyr.levels[0]? with
  | none => none
  | some l0 => downsample_extent_aux samp (chunk_keys_for_extent n l0.chunk_shape lod0_extent) pyr

/-- `ChunkPyramid::downsample_entire_map_all_lods(sampler)`, embedded from
the source: the bounding extent of LOD 0, downsampled through all levels. -/
def downsample_entire_map_all_lods {n : Nat} {T Meta : Type} (pyr : ChunkPyramid n T Meta)
    (samp : ChunkDownsampler n T) : Option (ChunkPyramid n T Meta) :=
  match pyr.levels[0]? with
  | none => none
  | some l0 =>
    match l0.bounding_extent with
    | none => none
    | some be => downsample_chunks_for_extent_all_lods pyr samp be

/-- `ChunkHashMapPyramid::new(builder, num_lods)`: `num_lods` levels, each
built from the builder over an empty hash-map storage (`num_lods` is `u8`
in the source, hence at most 255). -/
def ChunkHashMapPyramid_new (n : Nat) (T Meta : Type) (builder : ChunkMapBuilder n T Meta)
    (num_lods : Nat) : ChunkPyramid n T Meta :=
  ⟨List.replicate num_lods builder.build_with_write_storage_default⟩

/-- `ChunkHashMapPyramid::with_lod0_chunk_map(lod0_chunk_map, num_lods)`:
build a fresh pyramid from the map's builder, then overwrite level 0 with
the given map (`*pyramid.level_mut(0) = lod0_chunk_map`, a panic when
`num_lods = 0`). -/
def with_lod0_chunk_map {n : Nat} {T Meta : Type} (lod0_chunk_map : ChunkMap n T Meta)
    (num_lods : Nat) : ChunkPyramid n T Meta :=
  let pyramid := ChunkHashMapPyramid_new n T Meta lod0_chunk_map.builder num_lods
  ⟨pyramid.levels.set 0 lod0_chunk_map⟩

/-- `CompressibleChunkPyramid::new(builder, num_levels, compression)`.
The compressed cache backend is outside the given sources; at the
granularity of this model a freshly built `CompressibleChunkStorage` is
also an empty keyed store, so the constructor builds `num_levels` empty
levels from the builder. -/
def CompressibleChunkPyramid_new (n : Nat) (T Meta : Type) (builder : ChunkMapBuilder n T Meta)
    (num_levels : Nat) : ChunkPyramid n T Meta :=
  ⟨List.replicate num_levels builder.build_with_write_storage_default⟩

/-- The value of voxel `v` of the chunk at `key` in level `lod`, when both
exist: a projection used to observe pyramid states. -/
def levelChunkValue {n : Nat} {T Meta : Type} (pyr : ChunkPyramid n T Meta) (lod : Nat)
    (key v : PointN n) : Option T :=
  pyr.levels[lod]?.bind fun m => (m.chunks.lookup key).map fun c => c.array.values v

/-- The list of `(src_chunk_key, src_lod, dst_lod)` calls the
`downsample_chunk_all_lods` loop makes for a given list of destination
levels, with the source key shifted right one bit per step. -/
def all_lods_calls (n : Nat) (ds : List Nat) (key : PointN n) :
    List (PointN n × Nat × Nat) :=
  match ds with
  | [] => []
  | d :: rest => (key, d - 1, d) :: all_lods_calls n rest (psar n key 1)

/-- Run a list of `(src_chunk_key, src_lod, dst_lod)` calls through
`downsample_chunk` in order, propagating a panic. -/
def apply_downsample_calls {n : Nat} {T Meta : Type} (samp : ChunkDownsampler n T)
    (calls : List (PointN n × Nat × Nat)) (pyr : ChunkPyramid n T Meta) :
    Option (ChunkPyramid n T Meta) :=
  match calls with
  | [] => some pyr
  | (key, s, d) :: rest =>
    match downsample_chunk pyr samp key s d with
    | none => none
    | some p2 => apply_downsample_calls samp rest p2

/-- A one-dimensional integer chunk map of chunk shape 4, ambient value `a`
and no chunks: a concrete level for counterexamples. -/
def markMap (a : Int) : ChunkMap 1 Int Unit := ⟨fun _ => 4, a, (), []⟩

/-- A concrete downsampler (its reduction is never consulted by the
ambient-fill path). -/
def sampZero : ChunkDownsampler 1 Int := ⟨fun _ _ => 0⟩

/-- A four-level pyramid (chunk shape 4, ambient 7) whose level 3 already
holds a chunk at key 0 with all voxels equal to 100, and whose other levels
are empty. -/
def bugPyramid : ChunkPyramid 1 Int Unit :=
  ⟨[markMap 7, markMap 7, markMap 7,
    { markMap 7 with chunks := [(pzero 1, ⟨(), ⟨⟨pzero 1, fun _ => 4⟩, fun _ => 100⟩⟩)] }]⟩

/-- A block-confined point sampler: each destination voxel takes the first
voxel of its source block. -/
def ceSamp : ChunkDownsampler 1 Int := ⟨fun _ f => f (pzero 1)⟩

/-- A chunk of shape 4 at `key` with the given four voxel values
(voxel `key + i` holds `vi`). -/
def ceChunk (key : Int) (v0 v1 v2 v3 : Int) : Chunk 1 Int Unit :=
  ⟨(), ⟨⟨fun _ => key, fun _ => 4⟩, fun p =>
    if p 0 = key then v0 else if p 0 = key + 1 then v1
    else if p 0 = key + 2 then v2 else v3⟩⟩

/-- A five-level pyramid, chunk shape 4, ambient 0: LOD 0 holds chunks at
keys -60 and -40, and level 3 already holds a chunk at key -8 (a state the
store API allows: any level may be written directly). -/
def cePyr : ChunkPyramid 1 Int Unit :=
  ⟨[{ markMap 0 with chunks := [((fun _ => -60), ceChunk (-60) 11 12 13 14),
        ((fun _ => -40), ceChunk (-40) 21 22 23 24)] },
    markMap 0, markMap 0,
    { markMap 0 with chunks := [((fun _ => -8), ceChunk (-8) 91 92 93 94)] },
    markMap 0]⟩

/-- Witness instance for the idempotence theorem: a first-sample
downsampler. -/
def idSamp : ChunkDownsampler 1 Int := ⟨fun _ f => f (pzero 1)⟩

/-- Witness instance: LOD-0 store with chunk shape `2` and one chunk at the
origin. -/
def idL0 : ChunkMap 1 Int Unit :=
  ⟨fun _ => 2, 0, (), [(pzero 1, ⟨(), ⟨⟨pzero 1, fun _ => 2⟩, fun p => p 0⟩⟩)]⟩

/-- Witness instance: empty LOD-1 store with chunk shape `2`. -/
def idL1 : ChunkMap 1 Int Unit := ⟨fun _ => 2, 0, (), []⟩

/-- Witness instance: the two-level pyramid. -/
def idPyr : ChunkPyramid 1 Int Unit := ⟨[idL0, idL1]⟩

/-! ### One-level-up destination geometry

For the idempotence analysis every call of the whole-map traversal has
`lod_delta = 1`; `dkAx`/`offAx` are the per-axis destination key and offset
of `for_source_chunk` at `lod_delta = 1` over a power-of-two chunk shape
`2^m`. -/

/-- Per-axis destination chunk key at `lod_delta = 1`:
`(x >> (m + 1)) << m`. -/
def dkAx (m : Nat) (x : Int) : Int := shl (sar x (m + 1)) m

/-- Per-axis destination offset at `lod_delta = 1`:
`(x % (2^m * 2)) >> 1` (Rust `%`). -/
def offAx (m : Nat) (x : Int) : Int := sar (Int.tmod x (2 ^ m * 2)) 1

/-- The power-of-two chunk shape with per-axis exponents `m`. -/
def pshape (n : Nat) (m : Fin n → Nat) : PointN n := fun i => 2 ^ (m i)

/-- Destination chunk key of a source key, component-wise. -/
def DKp (n : Nat) (m : Fin n → Nat) (x : PointN n) : PointN n := fun i => dkAx (m i) (x i)

/-- Destination offset of a source key, component-wise. -/
def OFFp (n : Nat) (m : Fin n → Nat) (x : PointN n) : PointN n := fun i => offAx (m i) (x i)

/-- One call `(src_key, src_lod, dst_lod)` of the whole-map traversal. -/
abbrev DownsampleCall (n : Nat) := PointN n × Nat × Nat

/-- The region of voxels the call `(key, s, d)` writes: level `d`, the
chunk at `DKp key`, and within it the box at offset `OFFp key` of shape
`chunk_shape >> 1`, clipped to the chunk (both the ambient fill and the
spec's downsampler write exactly this region). -/
def writeRegion (n : Nat) (m : Fin n → Nat) (call : DownsampleCall n)
    (j : Nat) (c : PointN n) (p : PointN n) : Prop :=
  j = call.2.2 ∧ c = DKp n m call.1 ∧
    (∀ i, c i + OFFp n m call.1 i ≤ p i ∧
        p i < c i + OFFp n m call.1 i + sar ((2 : Int) ^ m i) 1) ∧
    (∀ i, c i ≤ p i ∧ p i < c i + 2 ^ m i)

/-- A voxel still to be written by one of the remaining calls. -/
def FutureWrite (n : Nat) (m : Fin n → Nat) (calls : List (DownsampleCall n))
    (j : Nat) (c : PointN n) (p : PointN n) : Prop :=
  ∃ call ∈ calls, writeRegion n m call j c p

/-- A chunk key one of the remaining calls ensures exists (its destination). -/
def FutureCreate (n : Nat) (m : Fin n → Nat) (calls : List (DownsampleCall n))
    (j : Nat) (c : PointN n) : Prop :=
  ∃ call ∈ calls, j = call.2.2 ∧ c = DKp n m call.1

/-- The effect of one `downsample_chunk` call with `lod_delta = 1` on the
destination store, given the source store: compute the destination,
get-or-insert the destination chunk, then write either the downsampled
source or the ambient fill (mirrors the body of `downsample_chunk`). -/
def downsample_step {n : Nat} {T Meta : Type} (samp : ChunkDownsampler n T)
    (key : PointN n) (srcm dstm : ChunkMap n T Meta) : ChunkMap n T Meta :=
  let dst := for_source_chunk n srcm.chunk_shape key 1
  let pair := dstm.get_mut_chunk_or_insert_ambient dst.dst_chunk_key
  let dst_chunk := pair.1
  let dst_map1 := pair.2
  let new_array :=
    match srcm.get_mut_chunk key with
    | some src_chunk =>
      samp.downsample src_chunk.array dst_chunk.array dst.dst_offset 1
    | none =>
      dst_chunk.array.fill_extent
        ⟨fun i => dst_chunk.array.extent.minimum i + dst.dst_offset i,
          psar n srcm.chunk_shape 1⟩ srcm.ambient_value
  dst_map1.set_chunk dst.dst_chunk_key { dst_chunk with array := new_array }

/-- The array transformation one call performs on the destination chunk's
array (the body of `downsample_step` once the destination geometry is the
power-of-two one): downsample the source chunk into it, or fill the offset
box with the source store's ambient value when the source chunk is absent. -/
def stepArray {n : Nat} {T Meta : Type} (samp : ChunkDownsampler n T) (m : Fin n → Nat)
    (key : PointN n) (srcm : ChunkMap n T Meta) (da : ArrayN n T) : ArrayN n T :=
  match srcm.get_mut_chunk key with
  | some sc => samp.downsample sc.array da (OFFp n m key) 1
  | none =>
    da.fill_extent
      ⟨fun i => da.extent.minimum i + OFFp n m key i, psar n (pshape n m) 1⟩
      srcm.ambient_value

/-- The value a call with source key `key` writes at every voxel of its
write region: the block reduction when the source chunk exists, the source
store's ambient value otherwise. -/
def writtenValue {n : Nat} {T Meta : Type} (samp : ChunkDownsampler n T)
    (m : Fin n → Nat) (key : PointN n) (srcm : ChunkMap n T Meta) (p : PointN n) : T :=
  match srcm.chunks.lookup key with
  | some src_chunk =>
    samp.reduce 1 (fun w =>
      src_chunk.array.values (fun i =>
        src_chunk.array.extent.minimum i +
          2 ^ (1 : Nat) * (p i - DKp n m key i - OFFp n m key i) + w i))
  | none => srcm.ambient_value

/-- Membership in the write region of the call with source key `key`
(inside the destination chunk `DKp key`). -/
def InRegion (n : Nat) (m : Fin n → Nat) (key : PointN n) (p : PointN n) : Prop :=
  (∀ i, DKp n m key i + OFFp n m key i ≤ p i ∧
      p i < DKp n m key i + OFFp n m key i + sar ((2 : Int) ^ m i) 1) ∧
  (∀ i, DKp n m key i ≤ p i ∧ p i < DKp n m key i + 2 ^ m i)

instance (n : Nat) (m : Fin n → Nat) (key p : PointN n) : Decidable (InRegion n m key p) :=
  inferInstanceAs (Decidable
    ((∀ i, DKp n m key i + OFFp n m key i ≤ p i ∧
        p i < DKp n m key i + OFFp n m key i + sar ((2 : Int) ^ m i) 1) ∧
      (∀ i, DKp n m key i ≤ p i ∧ p i < DKp n m key i + 2 ^ m i)))

/-- The full call list of the whole-map traversal: for each LOD-0 chunk key,
the column of one-level-up calls `downsample_chunk_all_lods` makes on a
pyramid of `L` levels. -/
def columns_calls (n L : Nat) (keys : List (PointN n)) : List (DownsampleCall n) :=
  match keys with
  | [] => []
  | y :: rest => all_lods_calls n (List.range' 1 (L % 256 - 1)) y ++ columns_calls n L rest

/-- The structural well-formedness of a pyramid the idempotence argument
maintains: every level has the shared power-of-two chunk shape, and every
chunk above level 0 has the canonical extent and a shape-aligned key. -/
def Good (n : Nat) {T Meta : Type} (m : Fin n → Nat) (pyr : ChunkPyramid n T Meta) : Prop :=
  (∀ (j : Nat) (a : ChunkMap n T Meta), pyr.levels[j]? = some a →
    a.chunk_shape = pshape n m) ∧
  (∀ (j : Nat) (a : ChunkMap n T Meta), 1 ≤ j → pyr.levels[j]? = some a →
    ∀ c ch, a.chunks.lookup c = some ch → ch.array.extent = ⟨c, pshape n m⟩) ∧
  (∀ (j : Nat) (a : ChunkMap n T Meta), 1 ≤ j → pyr.levels[j]? = some a →
    ∀ c, (a.chunks.lookup c).isSome → ∀ i, (2 : Int) ^ m i ∣ c i)

/-- Well-formedness of the call list a whole-map traversal produces, for a
pyramid of `L` levels: every call is a one-level-up call `(key, s, s+1)` with
`s + 1 < L` and a non-negative source key, and the list after a call is
empty, the same column's successor call, or the start of a new column. -/
def WFCalls (n : Nat) (L : Nat) : List (DownsampleCall n) → Prop
  | [] => True
  | (key, s, d) :: rest =>
    d = s + 1 ∧ s + 1 < L ∧ (∀ i, 0 ≤ key i) ∧
      (rest = [] ∨ (∃ r2, rest = (psar n key 1, s + 1, s + 2) :: r2) ∨
        (∃ k2 r2, rest = (k2, 0, 1) :: r2)) ∧
      WFCalls n L rest

/-- Every call of the list whose destination is not the top level is
followed, later in the list, by its own column's successor call (which
rewrites the half-chunk the call wrote, one level up). -/
def HasMaskers (n : Nat) (L : Nat) : List (DownsampleCall n) → Prop
  | [] => True
  | c :: rest =>
    (c.2.2 + 1 < L → (psar n c.1 1, c.2.2, c.2.2 + 1) ∈ rest) ∧ HasMaskers n L rest

/-- The dataflow invariant between the replayed first run (`σp`, which still
has `calls` ahead of it) and the second run (`τp`, started from the first
run's final state, also with `calls` ahead): level 0 is untouched and
identical; per-level store configuration agrees; every chunk of `σp` above
level 0 is canonical (extent `[c, c + 2^m)`, key a multiple of the shape);
`τp` has exactly the chunks `σp` has plus the ones future calls will create;
common chunks agree except on voxels still to be written; chunks only `τp`
has carry default metadata and agree with the ambient value except on voxels
still to be written; and an aligned head source key is already present on
the `σp` side. -/
structure Rel (n : Nat) (T Meta : Type) (m : Fin n → Nat)
    (calls : List (DownsampleCall n)) (σp τp : ChunkPyramid n T Meta) : Prop where
  len : τp.levels.length = σp.levels.length
  lev0 : τp.levels[0]? = σp.levels[0]?
  fields : ∀ (j : Nat) (a b : ChunkMap n T Meta), σp.levels[j]? = some a → τp.levels[j]? = some b →
    b.chunk_shape = a.chunk_shape ∧ b.ambient_value = a.ambient_value ∧
      b.default_chunk_metadata = a.default_chunk_metadata
  shape : ∀ (j : Nat) (a : ChunkMap n T Meta), σp.levels[j]? = some a → a.chunk_shape = pshape n m
  extσ : ∀ (j : Nat) (a : ChunkMap n T Meta), 1 ≤ j → σp.levels[j]? = some a →
    ∀ c ch, a.chunks.lookup c = some ch → ch.array.extent = ⟨c, pshape n m⟩
  extτ : ∀ (j : Nat) (b : ChunkMap n T Meta), 1 ≤ j → τp.levels[j]? = some b →
    ∀ c ch, b.chunks.lookup c = some ch → ch.array.extent = ⟨c, pshape n m⟩
  mulσ : ∀ (j : Nat) (a : ChunkMap n T Meta), 1 ≤ j → σp.levels[j]? = some a →
    ∀ c, (a.chunks.lookup c).isSome → ∀ i, (2 : Int) ^ m i ∣ c i
  pres : ∀ (j : Nat) (a b : ChunkMap n T Meta), 1 ≤ j → σp.levels[j]? = some a →
    τp.levels[j]? = some b → ∀ c,
      ((b.chunks.lookup c).isSome ↔
        (a.chunks.lookup c).isSome ∨ FutureCreate n m calls j c)
  common : ∀ (j : Nat) (a b : ChunkMap n T Meta), 1 ≤ j → σp.levels[j]? = some a →
    τp.levels[j]? = some b → ∀ c chσ chτ, a.chunks.lookup c = some chσ →
      b.chunks.lookup c = some chτ →
        chτ.metadata = chσ.metadata ∧
          ∀ p, chτ.array.values p ≠ chσ.array.values p → FutureWrite n m calls j c p
  fresh : ∀ (j : Nat) (a b : ChunkMap n T Meta), 1 ≤ j → σp.levels[j]? = some a →
    τp.levels[j]? = some b → ∀ c chτ, a.chunks.lookup c = none →
      b.chunks.lookup c = some chτ →
        chτ.metadata = a.default_chunk_metadata ∧
          ∀ p, chτ.array.values p ≠ a.ambient_value → FutureWrite n m calls j c p
  aligned : ∀ key s r2, calls = (key, s, s + 1) :: r2 → 1 ≤ s →
    (∀ i, (2 : Int) ^ m i ∣ key i) → ∀ a, σp.levels[s]? = some a →
      (a.chunks.lookup key).isSome

/-! ## Theorems -/

theorem tzFuel_two_pow : ∀ (fuel k : Nat), k < fuel → tzFuel fuel (2 ^ k) = k := by
  intro fuel
  induction fuel with
  | zero => intro k hk; omega
  | succ fuel ih =>
    intro k hk
    rcases k with _ | k
    · simp [tzFuel]
    · have h1 : 2 ^ (k + 1) ≠ 0 := by positivity
      have h2 : 2 ^ (k + 1) % 2 = 0 := by
        simp [Nat.pow_succ, Nat.mul_mod_left]
      have h3 : 2 ^ (k + 1) / 2 = 2 ^ k := by
        rw [Nat.pow_succ]
        exact Nat.mul_div_cancel _ (by decide)
      simp [tzFuel, h1, h2, h3, ih k (by omega)]

theorem i32TrailingZeros_two_pow (k : Nat) (hk : k ≤ 31) :
    i32TrailingZeros ((2 : Int) ^ k) = k := by
  have hlt : (2 : Int) ^ k < 2 ^ 32 := by
    have : (2 : Int) ^ k ≤ 2 ^ 31 := pow_le_pow_right₀ (by norm_num) hk
    calc (2 : Int) ^ k ≤ 2 ^ 31 := this
    _ < 2 ^ 32 := by norm_num
  have hnn : (0 : Int) ≤ 2 ^ k := by positivity
  have hmod : Int.emod ((2 : Int) ^ k) (2 ^ 32) = 2 ^ k := Int.emod_eq_of_lt hnn hlt
  have htn : (Int.toNat ((2 : Int) ^ k)) = 2 ^ k := by
    have : ((2 : Int) ^ k) = (((2 ^ k : Nat)) : Int) := by push_cast; ring
    rw [this, Int.toNat_natCast]
  rw [i32TrailingZeros, hmod, htn, tzFuel_two_pow 32 k (by omega)]

theorem log2_two_pow (k : Nat) : Nat.log2 (2 ^ k) = k := by
  rw [Nat.log2_eq_log_two, Nat.log_pow (by decide)]

theorem sar_eq_ediv (a : Int) (k : Nat) : sar a k = a / 2 ^ k :=
  Int.fdiv_eq_ediv a (by positivity)

theorem toNat_coe_add_coe (a b : Nat) : (((a : Int)) + ((b : Int))).toNat = a + b := by
  omega

/-- The two components of `for_source_chunk`, written out. -/
theorem for_source_chunk_components (n : Nat) (chunk_shape src_chunk_key : PointN n)
    (lod_delta : Nat) :
    for_source_chunk n chunk_shape src_chunk_key lod_delta =
      ⟨fun i => shl (sar (src_chunk_key i)
            (((i32TrailingZeros (chunk_shape i) : Int) + (lod_delta : Int)).toNat))
          ((i32TrailingZeros (chunk_shape i) : Int)).toNat,
       fun i => sar (Int.tmod (src_chunk_key i) (shl (chunk_shape i) lod_delta)) lod_delta⟩ :=
  rfl

/-- C1: on power-of-two chunk shapes, the code's trailing-zeros based
computation agrees with the spec's base-2-logarithm formulas
`dst_chunk_key = (src_key >> (chunk_shape_log2 + lod_delta)) << chunk_shape_log2`
and `dst_offset = (src_key mod (chunk_shape << lod_delta)) >> lod_delta`. -/
theorem for_source_chunk_eq_spec (n : Nat) (chunk_shape src_chunk_key : PointN n)
    (lod_delta : Nat) (hshape : PowTwoShape n chunk_shape) (hδ : 1 ≤ lod_delta) :
    for_source_chunk n chunk_shape src_chunk_key lod_delta =
      forSourceChunkSpec n chunk_shape src_chunk_key lod_delta := by
  rw [for_source_chunk_components]
  unfold forSourceChunkSpec
  congr 1
  · funext i
    obtain ⟨k, hk, he⟩ := hshape i
    have htz : i32TrailingZeros (chunk_shape i) = k := by
      rw [he]; exact i32TrailingZeros_two_pow k (by omega)
    have hlog : Nat.log2 (chunk_shape i).toNat = k := by
      rw [he]
      have : ((2 : Int) ^ k).toNat = 2 ^ k := by
        have h2 : ((2 : Int) ^ k) = (((2 ^ k : Nat)) : Int) := by push_cast; ring
        rw [h2, Int.toNat_natCast]
      rw [this, log2_two_pow]
    rw [htz, hlog, toNat_coe_add_coe, Int.toNat_natCast]

/-- Witness for C1 at chunk shape `(16, 16, 16)` and `lod_delta = 1`. -/
theorem for_source_chunk_eq_spec_witness :
    PowTwoShape 3 (fun _ => 16) ∧ 1 ≤ 1 ∧
      for_source_chunk 3 (fun _ => 16) (fun _ => 40) 1 =
        forSourceChunkSpec 3 (fun _ => 16) (fun _ => 40) 1 := by
  refine ⟨fun i => ⟨4, by decide, by norm_num⟩, le_refl 1, ?_⟩
  exact for_source_chunk_eq_spec 3 _ _ 1 (fun i => ⟨4, by decide, by norm_num⟩) (le_refl 1)

theorem sar_two_pow_succ_self (k : Nat) : sar ((2 : Int) ^ k) (k + 1) = 0 := by
  rw [sar_eq_ediv]
  exact Int.ediv_eq_zero_of_lt (by positivity) (by
    exact pow_lt_pow_right₀ (by norm_num) (by omega))

theorem shl_zero_left (k : Nat) : shl 0 k = 0 := by simp [shl]

theorem sar_zero_left (k : Nat) : sar 0 k = 0 := by
  rw [sar_eq_ediv]; simp

/-- C4: the one-level-up doctest cases, for every power-of-two chunk shape:
`src_key = chunk_shape` lands at `dst_chunk_key = 0`, `dst_offset = chunk_shape / 2`;
`src_key = 2 * chunk_shape` lands at `dst_chunk_key = chunk_shape`, `dst_offset = 0`. -/
theorem for_source_chunk_one_level_up (n : Nat) (chunk_shape : PointN n)
    (hshape : PowTwoShape n chunk_shape) :
    for_source_chunk n chunk_shape chunk_shape 1 =
      ⟨pzero n, pdivScalar n chunk_shape 2⟩ ∧
    for_source_chunk n chunk_shape (pscale n 2 chunk_shape) 1 =
      ⟨chunk_shape, pzero n⟩ := by
  constructor
  · rw [for_source_chunk_components]
    congr 1
    · funext i
      obtain ⟨k, hk, he⟩ := hshape i
      have htz : i32TrailingZeros (chunk_shape i) = k := by
        rw [he]; exact i32TrailingZeros_two_pow k (by omega)
      rw [htz, toNat_coe_add_coe, he]
      rw [sar_two_pow_succ_self, shl_zero_left]
      rfl
    · funext i
      obtain ⟨k, hk, he⟩ := hshape i
      have hnn : (0 : Int) ≤ 2 ^ k := by positivity
      have hmod : Int.tmod ((2 : Int) ^ k) (shl (2 ^ k) 1) = 2 ^ k := by
        rw [shl, Int.tmod_eq_emod hnn (by positivity)]
        exact Int.emod_eq_of_lt hnn
          (by nlinarith [pow_pos (show (0:Int) < 2 by norm_num) k])
      rw [he, hmod, pdivScalar, he, sar_eq_ediv, pow_one,
        Int.tdiv_eq_ediv hnn (by norm_num)]
  · rw [for_source_chunk_components]
    congr 1
    · funext i
      obtain ⟨k, hk, he⟩ := hshape i
      have htz : i32TrailingZeros (chunk_shape i) = k := by
        rw [he]; exact i32TrailingZeros_two_pow k (by omega)
      rw [htz, toNat_coe_add_coe]
      have hkey : pscale n 2 chunk_shape i = 2 ^ (k + 1) := by
        rw [pscale, he]; ring
      rw [hkey, sar_eq_ediv, Int.ediv_self (by positivity), shl, one_mul, he]
      rfl
    · funext i
      obtain ⟨k, hk, he⟩ := hshape i
      have hkey : pscale n 2 chunk_shape i = 2 ^ (k + 1) := by
        rw [pscale, he]; ring
      have hshl : shl (chunk_shape i) 1 = 2 ^ (k + 1) := by
        rw [shl, he]; ring
      rw [hkey, hshl, Int.tmod_self, sar_zero_left]
      rfl

/-- Witness for C4 at chunk shape `(16, 16, 16)`. -/
theorem for_source_chunk_one_level_up_witness :
    PowTwoShape 3 (fun _ => 16) ∧
      (for_source_chunk 3 (fun _ => 16) (fun _ => 16) 1 =
          ⟨pzero 3, pdivScalar 3 (fun _ => 16) 2⟩ ∧
        for_source_chunk 3 (fun _ => 16) (pscale 3 2 (fun _ => 16)) 1 =
          ⟨(fun _ => 16), pzero 3⟩) :=
  ⟨fun i => ⟨4, by decide, by norm_num⟩,
    for_source_chunk_one_level_up 3 (fun _ => 16) (fun i => ⟨4, by decide, by norm_num⟩)⟩

theorem sar_three_two_pow (k : Nat) : sar (3 * (2 : Int) ^ k) (k + 2) = 0 := by
  rw [sar_eq_ediv]
  refine Int.ediv_eq_zero_of_lt (by positivity) ?_
  have : ((2 : Int)) ^ (k + 2) = 4 * 2 ^ k := by ring
  rw [this]
  nlinarith [pow_pos (show (0:Int) < 2 by norm_num) k]

/-- C5: the two-levels-up doctest cases, for every power-of-two chunk shape:
`src_key = 3 * chunk_shape` lands at `dst_chunk_key = 0`,
`dst_offset = 3 * chunk_shape / 4`; `src_key = 4 * chunk_shape` lands at
`dst_chunk_key = chunk_shape`, `dst_offset = 0`. -/
theorem for_source_chunk_two_levels_up (n : Nat) (chunk_shape : PointN n)
    (hshape : PowTwoShape n chunk_shape) :
    for_source_chunk n chunk_shape (pscale n 3 chunk_shape) 2 =
      ⟨pzero n, pdivScalar n (pscale n 3 chunk_shape) 4⟩ ∧
    for_source_chunk n chunk_shape (pscale n 4 chunk_shape) 2 =
      ⟨chunk_shape, pzero n⟩ := by
  constructor
  · rw [for_source_chunk_components]
    congr 1
    · funext i
      obtain ⟨k, hk, he⟩ := hshape i
      have htz : i32TrailingZeros (chunk_shape i) = k := by
        rw [he]; exact i32TrailingZeros_two_pow k (by omega)
      have hkey : pscale n 3 chunk_shape i = 3 * 2 ^ k := by
        rw [pscale, he]
      rw [htz, toNat_coe_add_coe, hkey, sar_three_two_pow, shl_zero_left]
      rfl
    · funext i
      obtain ⟨k, hk, he⟩ := hshape i
      have hkey : pscale n 3 chunk_shape i = 3 * 2 ^ k := by
        rw [pscale, he]
      have hpos : (0 : Int) < 2 ^ k := by positivity
      have hmod : Int.tmod (3 * (2 : Int) ^ k) (shl (2 ^ k) 2) = 3 * 2 ^ k := by
        rw [shl, Int.tmod_eq_emod (by positivity) (by positivity)]
        refine Int.emod_eq_of_lt (by positivity)
          (by nlinarith [pow_pos (show (0:Int) < 2 by norm_num) k])
      rw [hkey, he, hmod, pdivScalar, hkey, sar_eq_ediv,
        Int.tdiv_eq_ediv (by positivity) (by norm_num)]
      norm_num
  · rw [for_source_chunk_components]
    congr 1
    · funext i
      obtain ⟨k, hk, he⟩ := hshape i
      have htz : i32TrailingZeros (chunk_shape i) = k := by
        rw [he]; exact i32TrailingZeros_two_pow k (by omega)
      have hkey : pscale n 4 chunk_shape i = 2 ^ (k + 2) := by
        rw [pscale, he]; ring
      rw [htz, toNat_coe_add_coe, hkey, sar_eq_ediv, Int.ediv_self (by positivity),
        shl, one_mul, he]
      rfl
    · funext i
      obtain ⟨k, hk, he⟩ := hshape i
      have hkey : pscale n 4 chunk_shape i = 2 ^ (k + 2) := by
        rw [pscale, he]; ring
      have hshl : shl (chunk_shape i) 2 = 2 ^ (k + 2) := by
        rw [shl, he]; ring
      rw [hkey, hshl, Int.tmod_self, sar_zero_left]
      rfl

/-- Witness for C5 at chunk shape `(16, 16, 16)`. -/
theorem for_source_chunk_two_levels_up_witness :
    PowTwoShape 3 (fun _ => 16) ∧
      (for_source_chunk 3 (fun _ => 16) (pscale 3 3 (fun _ => 16)) 2 =
          ⟨pzero 3, pdivScalar 3 (pscale 3 3 (fun _ => 16)) 4⟩ ∧
        for_source_chunk 3 (fun _ => 16) (pscale 3 4 (fun _ => 16)) 2 =
          ⟨(fun _ => 16), pzero 3⟩) :=
  ⟨fun i => ⟨4, by decide, by norm_num⟩,
    for_source_chunk_two_levels_up 3 (fun _ => 16) (fun i => ⟨4, by decide, by norm_num⟩)⟩

/-- C2: `two_levels_mut` does not return the store at index `lod_b` as its
second element.  At `(lod_a, lod_b) = (0, 2)` on a four-level pyramid it
returns the store at index `3 = 2 * lod_b - lod_a - 1`; on a three-level
pyramid the same request panics although both indices are in range. -/
theorem two_levels_mut_wrong_second_level :
    (two_levels_mut [markMap 10, markMap 20, markMap 30, markMap 40] 0 2).map
        (fun pr => (pr.1.ambient_value, pr.2.ambient_value)) = some (10, 40) ∧
    two_levels_mut [markMap 10, markMap 20, markMap 30] 0 2 = none :=
  ⟨rfl, rfl⟩

theorem two_levels_mut_eq_bind {n : Nat} {T Meta : Type}
    (levels : List (ChunkMap n T Meta)) (a b : Nat) (hab : a < b) :
    two_levels_mut levels a b =
      levels[a]?.bind (fun x => (levels[2 * b - a - 1]?).map (fun y => (x, y))) := by
  unfold two_levels_mut
  by_cases hb : b ≤ levels.length
  · simp only [hb, if_true]
    have h1 : (levels.take b)[a]? = levels[a]? := List.getElem?_take_of_lt hab
    have h2 : (levels.drop b)[b - a - 1]? = levels[b + (b - a - 1)]? := List.getElem?_drop _ _ _
    have h3 : b + (b - a - 1) = 2 * b - a - 1 := by omega
    rw [h1, h2, h3]
    rcases hx : levels[a]? with _ | x <;> rcases hy : levels[2 * b - a - 1]? with _ | y <;>
      simp [hx, hy]
  · have hbig : levels.length ≤ 2 * b - a - 1 := by omega
    simp only [hb, if_false]
    rw [List.getElem?_eq_none hbig]
    rcases hx : levels[a]? with _ | x <;> simp [hx]

theorem downsample_chunk_eq_none_iff {n : Nat} {T Meta : Type} (pyr : ChunkPyramid n T Meta)
    (samp : ChunkDownsampler n T) (key : PointN n) (src_lod dst_lod : Nat) :
    downsample_chunk pyr samp key src_lod dst_lod = none ↔
      dst_lod ≤ src_lod ∨ pyr.levels.length ≤ 2 * dst_lod - src_lod - 1 := by
  by_cases hds : dst_lod > src_lod
  · simp only [downsample_chunk, hds, if_true]
    rw [two_levels_mut_eq_bind pyr.levels src_lod dst_lod hds]
    rcases hx : pyr.levels[src_lod]? with _ | x
    · have hlen : pyr.levels.length ≤ src_lod := by
        by_contra h
        rw [List.getElem?_eq_getElem (by omega)] at hx
        cases hx
      simp only [Option.none_bind]
      constructor
      · intro _; right; omega
      · intro _; trivial
    · rcases hy : pyr.levels[2 * dst_lod - src_lod - 1]? with _ | y
      · have hlen : pyr.levels.length ≤ 2 * dst_lod - src_lod - 1 := by
          by_contra h
          rw [List.getElem?_eq_getElem (by omega)] at hy
          cases hy
        simp only [Option.some_bind, Option.map_none]
        constructor
        · intro _; right; exact hlen
        · intro _; trivial
      · have hlt : 2 * dst_lod - src_lod - 1 < pyr.levels.length := by
          by_contra h
          rw [List.getElem?_eq_none (by omega)] at hy
          cases hy
        simp only [Option.some_bind, Option.map_some]
        constructor
        · intro h; cases h
        · intro h; rcases h with h | h <;> omega
  · simp only [downsample_chunk, hds, if_false]
    constructor
    · intro _; left; omega
    · intro _; trivial

/-- C6 (amended): `downsample_chunk(sampler, src_key, src_lod, dst_lod)`
aborts fatally — modelled as `none`, with the pyramid unchanged — exactly
when `dst_lod ≤ src_lod` (the `assert!`, hit before any level is touched)
or when `2 * dst_lod - src_lod - 1 ≥ num_levels` (the out-of-range
`two_levels_mut` borrow, also hit before any mutation). -/
theorem downsample_chunk_aborts_iff {n : Nat} {T Meta : Type} (pyr : ChunkPyramid n T Meta)
    (samp : ChunkDownsampler n T) (key : PointN n) (src_lod dst_lod : Nat) :
    downsample_chunk pyr samp key src_lod dst_lod = none ↔
      dst_lod ≤ src_lod ∨ pyr.levels.length ≤ 2 * dst_lod - src_lod - 1 :=
  downsample_chunk_eq_none_iff pyr samp key src_lod dst_lod

/-- C6 counterexample: on a three-level pyramid, `downsample_chunk` with
`src_lod = 0` and `dst_lod = 2` aborts even though the precondition
`dst_lod > src_lod` holds, so "aborts iff `dst_lod ≤ src_lod`" is false. -/
theorem downsample_chunk_aborts_beyond_precondition :
    downsample_chunk (⟨[markMap 7, markMap 7, markMap 7]⟩ : ChunkPyramid 1 Int Unit)
        sampZero (pzero 1) 0 2 = none ∧ ¬ (2 ≤ 0) := by
  refine ⟨?_, by omega⟩
  refine (downsample_chunk_eq_none_iff _ _ _ 0 2).mpr (Or.inr ?_)
  simp

/-- C3 fails on the code at `lod_delta ≥ 2`: with an absent source chunk,
`downsample_chunk` fills a region of shape `chunk_shape >> 1` (the source
hardcodes `chunk_shape >> 1`, not `chunk_shape >> lod_delta`), and the
write lands in level `2 * dst_lod - src_lod - 1` (here 3), not in
`dst_lod` (here 2): on `bugPyramid`, level 2 stays chunkless, and in the
level-3 chunk voxel 1 — inside `chunk_shape >> 1 = 2` but outside
`chunk_shape >> 2 = 1` — is overwritten with the source ambient value 7,
while voxel 2 keeps its old value 100. -/
theorem downsample_chunk_ambient_fill_bug :
    (downsample_chunk bugPyramid sampZero (pzero 1) 0 2).map (fun p2 =>
      (p2.levels[2]?.map (fun m => m.chunks.length),
       levelChunkValue p2 3 (pzero 1) (fun _ => 1),
       levelChunkValue p2 3 (pzero 1) (fun _ => 2))) =
      some (some 0, some 7, some 100) := by decide

theorem downsample_chunk_length {n : Nat} {T Meta : Type} (pyr p2 : ChunkPyramid n T Meta)
    (samp : ChunkDownsampler n T) (key : PointN n) (s d : Nat)
    (h : downsample_chunk pyr samp key s d = some p2) :
    p2.levels.length = pyr.levels.length := by
  unfold downsample_chunk at h
  by_cases hds : d > s
  · rw [if_pos hds] at h
    rcases htl : two_levels_mut pyr.levels s d with _ | ⟨sm, dm⟩
    · rw [htl] at h; cases h
    · rw [htl] at h
      injection h with h2
      rw [← h2]
      simp [List.length_set]
  · rw [if_neg hds] at h; cases h

theorem downsample_chunk_all_lods_aux_length {n : Nat} {T Meta : Type}
    (samp : ChunkDownsampler n T) :
    ∀ (ds : List Nat) (key : PointN n) (pyr p2 : ChunkPyramid n T Meta),
      downsample_chunk_all_lods_aux samp ds key pyr = some p2 →
        p2.levels.length = pyr.levels.length := by
  intro ds
  induction ds with
  | nil =>
    intro key pyr p2 h
    unfold downsample_chunk_all_lods_aux at h
    injection h with h2
    rw [← h2]
  | cons d rest ih =>
    intro key pyr p2 h
    unfold downsample_chunk_all_lods_aux at h
    rcases hstep : downsample_chunk pyr samp key (d - 1) d with _ | pmid
    · rw [hstep] at h; cases h
    · rw [hstep] at h
      rw [ih (psar n key 1) pmid p2 h]
      exact downsample_chunk_length pyr pmid samp key (d - 1) d hstep

theorem downsample_chunk_all_lods_length {n : Nat} {T Meta : Type}
    (pyr p2 : ChunkPyramid n T Meta) (samp : ChunkDownsampler n T) (key : PointN n)
    (h : downsample_chunk_all_lods pyr samp key = some p2) :
    p2.levels.length = pyr.levels.length :=
  downsample_chunk_all_lods_aux_length samp _ key pyr p2 h

theorem downsample_extent_aux_length {n : Nat} {T Meta : Type}
    (samp : ChunkDownsampler n T) :
    ∀ (keys : List (PointN n)) (pyr p2 : ChunkPyramid n T Meta),
      downsample_extent_aux samp keys pyr = some p2 →
        p2.levels.length = pyr.levels.length := by
  intro keys
  induction keys with
  | nil =>
    intro pyr p2 h
    unfold downsample_extent_aux at h
    injection h with h2
    rw [← h2]
  | cons key rest ih =>
    intro pyr p2 h
    unfold downsample_extent_aux at h
    rcases hstep : downsample_chunk_all_lods pyr samp key with _ | pmid
    · rw [hstep] at h; cases h
    · rw [hstep] at h
      rw [ih pmid p2 h]
      exact downsample_chunk_all_lods_length pyr pmid samp key hstep

theorem downsample_for_extent_length {n : Nat} {T Meta : Type}
    (pyr p2 : ChunkPyramid n T Meta) (samp : ChunkDownsampler n T) (e : ExtentN n)
    (h : downsample_chunks_for_extent_all_lods pyr samp e = some p2) :
    p2.levels.length = pyr.levels.length := by
  unfold downsample_chunks_for_extent_all_lods at h
  rcases h0 : pyr.levels[0]? with _ | l0
  · rw [h0] at h; cases h
  · rw [h0] at h
    exact downsample_extent_aux_length samp _ pyr p2 h

theorem downsample_entire_map_length {n : Nat} {T Meta : Type}
    (pyr p2 : ChunkPyramid n T Meta) (samp : ChunkDownsampler n T)
    (h : downsample_entire_map_all_lods pyr samp = some p2) :
    p2.levels.length = pyr.levels.length := by
  unfold downsample_entire_map_all_lods at h
  rcases h0 : pyr.levels[0]? with _ | l0
  · rw [h0] at h; cases h
  · rw [h0] at h
    dsimp only at h
    rcases hbe : l0.bounding_extent with _ | be
    · rw [hbe] at h; cases h
    · rw [hbe] at h
      exact downsample_for_extent_length pyr p2 samp be h

/-- C9: a pyramid built by either constructor has exactly `num_lods`
levels (`num_lods` is a `u8` in the source, so at most 255; the count is
exact for every natural number in the model), `with_lod0_chunk_map` keeps
the count, and every downsampling entry point preserves the number of
levels whenever it completes (level access and the dual-level borrow never
restructure the level list in the source).  Preservation is stated through
`Option.map` so that an aborted call carries no claim. -/
theorem pyramid_level_count_invariant (n : Nat) (T Meta : Type)
    (builder : ChunkMapBuilder n T Meta) (num_lods : Nat) :
    (ChunkHashMapPyramid_new n T Meta builder num_lods).levels.length = num_lods ∧
    (CompressibleChunkPyramid_new n T Meta builder num_lods).levels.length = num_lods ∧
    (∀ m : ChunkMap n T Meta, (with_lod0_chunk_map m num_lods).levels.length = num_lods) ∧
    (∀ (pyr : ChunkPyramid n T Meta) (samp : ChunkDownsampler n T) (key : PointN n)
        (s d : Nat),
      (downsample_chunk pyr samp key s d).map (fun p2 => p2.levels.length) =
        (downsample_chunk pyr samp key s d).map (fun _ => pyr.levels.length)) ∧
    (∀ (pyr : ChunkPyramid n T Meta) (samp : ChunkDownsampler n T) (key : PointN n),
      (downsample_chunk_all_lods pyr samp key).map (fun p2 => p2.levels.length) =
        (downsample_chunk_all_lods pyr samp key).map (fun _ => pyr.levels.length)) ∧
    (∀ (pyr : ChunkPyramid n T Meta) (samp : ChunkDownsampler n T) (e : ExtentN n),
      (downsample_chunks_for_extent_all_lods pyr samp e).map (fun p2 => p2.levels.length) =
        (downsample_chunks_for_extent_all_lods pyr samp e).map
          (fun _ => pyr.levels.length)) ∧
    (∀ (pyr : ChunkPyramid n T Meta) (samp : ChunkDownsampler n T),
      (downsample_entire_map_all_lods pyr samp).map (fun p2 => p2.levels.length) =
        (downsample_entire_map_all_lods pyr samp).map (fun _ => pyr.levels.length)) := by
  refine ⟨?_, ?_, ?_, ?_, ?_, ?_, ?_⟩
  · simp [ChunkHashMapPyramid_new]
  · simp [CompressibleChunkPyramid_new]
  · intro m
    simp [with_lod0_chunk_map, ChunkHashMapPyramid_new]
  · intro pyr samp key s d
    rcases h : downsample_chunk pyr samp key s d with _ | p2
    · rfl
    · simp [downsample_chunk_length pyr p2 samp key s d h]
  · intro pyr samp key
    rcases h : downsample_chunk_all_lods pyr samp key with _ | p2
    · rfl
    · simp [downsample_chunk_all_lods_length pyr p2 samp key h]
  · intro pyr samp e
    rcases h : downsample_chunks_for_extent_all_lods pyr samp e with _ | p2
    · rfl
    · simp [downsample_for_extent_length pyr p2 samp e h]
  · intro pyr samp
    rcases h : downsample_entire_map_all_lods pyr samp with _ | p2
    · rfl
    · simp [downsample_entire_map_length pyr p2 samp h]

/-- C10: `with_lod0_chunk_map(lod0_chunk_map, num_lods)` yields level 0
exactly equal to the given map and `num_lods - 1` higher levels built from
the map's builder with no chunks (same chunk shape, ambient value and
default metadata). -/
theorem with_lod0_chunk_map_levels {n : Nat} {T Meta : Type} (m : ChunkMap n T Meta)
    (num_lods : Nat) (h : 1 ≤ num_lods) :
    (with_lod0_chunk_map m num_lods).levels =
      m :: List.replicate (num_lods - 1) m.builder.build_with_write_storage_default := by
  obtain ⟨k, rfl⟩ : ∃ k, num_lods = k + 1 := ⟨num_lods - 1, by omega⟩
  unfold with_lod0_chunk_map ChunkHashMapPyramid_new
  simp [List.replicate_succ]

/-- Witness for C10 at a concrete one-dimensional map and `num_lods = 2`. -/
theorem with_lod0_chunk_map_levels_witness :
    1 ≤ 2 ∧
      (with_lod0_chunk_map (markMap 10) 2).levels =
        markMap 10 ::
          List.replicate (2 - 1) (markMap 10).builder.build_with_write_storage_default :=
  ⟨by omega, with_lod0_chunk_map_levels (markMap 10) 2 (by omega)⟩

theorem sar_sar (x : Int) (j k : Nat) : sar (sar x j) k = sar x (j + k) := by
  rw [sar_eq_ediv, sar_eq_ediv, sar_eq_ediv]
  have hj : (0 : Int) < 2 ^ j := by positivity
  have hk : (0 : Int) < 2 ^ k := by positivity
  have hr1 : 0 ≤ x % 2 ^ j := Int.emod_nonneg x (by positivity)
  have hr2 : x % 2 ^ j < 2 ^ j := Int.emod_lt_of_pos x hj
  have hs1 : 0 ≤ (x / 2 ^ j) % 2 ^ k := Int.emod_nonneg _ (by positivity)
  have hs2 : (x / 2 ^ j) % 2 ^ k < 2 ^ k := Int.emod_lt_of_pos _ hk
  have hx : x = 2 ^ j * (x / 2 ^ j) + x % 2 ^ j := (Int.ediv_add_emod x (2 ^ j)).symm
  have hy : x / 2 ^ j = 2 ^ k * (x / 2 ^ j / 2 ^ k) + (x / 2 ^ j) % 2 ^ k :=
    (Int.ediv_add_emod (x / 2 ^ j) (2 ^ k)).symm
  have hxfull : x = (2 ^ j * ((x / 2 ^ j) % 2 ^ k) + x % 2 ^ j) +
      2 ^ (j + k) * (x / 2 ^ j / 2 ^ k) := by
    rw [pow_add]
    nlinarith [hx, hy]
  have hlt : 2 ^ j * ((x / 2 ^ j) % 2 ^ k) + x % 2 ^ j < 2 ^ (j + k) := by
    rw [pow_add]
    nlinarith
  have hge : 0 ≤ 2 ^ j * ((x / 2 ^ j) % 2 ^ k) + x % 2 ^ j := by positivity
  calc x / 2 ^ j / 2 ^ k
      = (2 ^ j * ((x / 2 ^ j) % 2 ^ k) + x % 2 ^ j) / 2 ^ (j + k) +
          x / 2 ^ j / 2 ^ k := by
        rw [Int.ediv_eq_zero_of_lt hge hlt]; omega
    _ = ((2 ^ j * ((x / 2 ^ j) % 2 ^ k) + x % 2 ^ j) +
          2 ^ (j + k) * (x / 2 ^ j / 2 ^ k)) / 2 ^ (j + k) := by
        rw [Int.add_mul_ediv_left _ _ (by positivity : ((2 : Int) ^ (j + k)) ≠ 0)]
    _ = x / 2 ^ (j + k) := by rw [← hxfull]

theorem psar_zero (n : Nat) (p : PointN n) : psar n p 0 = p := by
  funext i
  rw [psar, sar_eq_ediv]
  simp

theorem psar_psar (n : Nat) (p : PointN n) (j k : Nat) :
    psar n (psar n p j) k = psar n p (j + k) := by
  funext i
  exact sar_sar (p i) j k

theorem all_lods_aux_eq_apply {n : Nat} {T Meta : Type} (samp : ChunkDownsampler n T) :
    ∀ (ds : List Nat) (key : PointN n) (pyr : ChunkPyramid n T Meta),
      downsample_chunk_all_lods_aux samp ds key pyr =
        apply_downsample_calls samp (all_lods_calls n ds key) pyr := by
  intro ds
  induction ds with
  | nil => intro key pyr; rfl
  | cons d rest ih =>
    intro key pyr
    unfold downsample_chunk_all_lods_aux all_lods_calls apply_downsample_calls
    rcases h : downsample_chunk pyr samp key (d - 1) d with _ | p2
    · rfl
    · exact ih (psar n key 1) p2

theorem all_lods_calls_range (n : Nat) :
    ∀ (m a : Nat) (key : PointN n),
      all_lods_calls n (List.range' a m) key =
        (List.range' a m).map (fun d => (psar n key (d - a), d - 1, d)) := by
  intro m
  induction m with
  | zero => intro a key; rfl
  | succ m ih =>
    intro a key
    rw [List.range'_succ]
    unfold all_lods_calls
    rw [List.map_cons, ih (a + 1) (psar n key 1)]
    have hfst : key = psar n key (a - a) := by
      rw [Nat.sub_self, psar_zero]
    refine congrArg₂ (fun x y => List.cons x y) (by rw [← hfst]) ?_
    refine List.map_congr_left ?_
    intro d hd
    rw [List.mem_range'] at hd
    obtain ⟨i, hi, rfl⟩ := hd
    have h1 : a + 1 + 1 * i - (a + 1) = i := by omega
    have h2 : a + 1 + 1 * i - a = 1 + i := by omega
    rw [h1, h2, psar_psar]

/-- C7: `downsample_chunk_all_lods(sampler, lod0_chunk_key)` on a pyramid
of `L ≤ 255` levels performs exactly the `L - 1` `downsample_chunk` calls
`(lod0_chunk_key >> (dst_lod - 1), dst_lod - 1, dst_lod)` for
`dst_lod = 1, …, L - 1`, in that order. -/
theorem downsample_chunk_all_lods_call_sequence {n : Nat} {T Meta : Type}
    (pyr : ChunkPyramid n T Meta) (samp : ChunkDownsampler n T)
    (lod0_chunk_key : PointN n) (L : Nat) (hL : pyr.levels.length = L) (h255 : L ≤ 255) :
    downsample_chunk_all_lods pyr samp lod0_chunk_key =
      apply_downsample_calls samp
        ((List.range' 1 (L - 1)).map
          (fun d => (psar n lod0_chunk_key (d - 1), d - 1, d))) pyr ∧
    ((List.range' 1 (L - 1)).map
        (fun d => (psar n lod0_chunk_key (d - 1), d - 1, d))).length = L - 1 := by
  constructor
  · rw [downsample_chunk_all_lods, hL, Nat.mod_eq_of_lt (by omega),
      all_lods_aux_eq_apply, all_lods_calls_range]
  · simp

/-- Witness for C7 on a concrete two-level pyramid. -/
theorem downsample_chunk_all_lods_call_sequence_witness :
    (⟨[markMap 7, markMap 7]⟩ : ChunkPyramid 1 Int Unit).levels.length = 2 ∧ 2 ≤ 255 ∧
      (downsample_chunk_all_lods (⟨[markMap 7, markMap 7]⟩ : ChunkPyramid 1 Int Unit)
          sampZero (pzero 1) =
        apply_downsample_calls sampZero
          ((List.range' 1 (2 - 1)).map
            (fun d => (psar 1 (pzero 1) (d - 1), d - 1, d)))
          ⟨[markMap 7, markMap 7]⟩ ∧
      ((List.range' 1 (2 - 1)).map
          (fun d => (psar 1 (pzero 1) (d - 1), d - 1, d))).length = 2 - 1) :=
  ⟨rfl, by omega,
    downsample_chunk_all_lods_call_sequence
      (⟨[markMap 7, markMap 7]⟩ : ChunkPyramid 1 Int Unit) sampZero (pzero 1) 2 rfl
      (by omega)⟩

/-- C8 counterexample: on `cePyr` — negative chunk keys and one
pre-existing level-3 chunk — one whole-map downsample leaves value 91 at
voxel -4 of the level-4 chunk at key -4 (the level-4 step of column -60
samples the pre-existing level-3 chunk at key -8 before the level-3
ambient fill of column -40 overwrites the sampled voxel), while a second
run reads the now-ambient voxel and writes 0: the two results differ, so
`downsample_entire_map_all_lods` is not idempotent for every pyramid state
and block-confined deterministic downsampler. -/
theorem downsample_entire_map_not_idempotent :
    ((downsample_entire_map_all_lods cePyr ceSamp).map (fun q =>
        levelChunkValue q 4 (fun _ => -4) (fun _ => -4))) = some (some 91) ∧
    (((downsample_entire_map_all_lods cePyr ceSamp).bind (fun q =>
        downsample_entire_map_all_lods q ceSamp)).map (fun q =>
        levelChunkValue q 4 (fun _ => -4) (fun _ => -4))) = some (some 0) := by
  constructor
  · decide
  · decide

/-! ### Arithmetic facts about the one-level-up geometry -/

theorem sar_one_eq (x : Int) : sar x 1 = x / 2 := by
  rw [sar_eq_ediv]; norm_num

theorem sar_nonneg (x : Int) (k : Nat) (h : 0 ≤ x) : 0 ≤ sar x k := by
  rw [sar_eq_ediv]; exact Int.ediv_nonneg h (by positivity)

theorem tmod_nonneg_eq_emod (x y : Int) (h : 0 ≤ x) (hy : 0 ≤ y) :
    Int.tmod x y = x % y := Int.tmod_eq_emod h hy

theorem offAx_bounds (m : Nat) (x : Int) (hx : 0 ≤ x) :
    0 ≤ offAx m x ∧ offAx m x < 2 ^ m := by
  have hpos : (0 : Int) < 2 ^ m * 2 := by positivity
  have h1 : Int.tmod x (2 ^ m * 2) = x % (2 ^ m * 2) :=
    tmod_nonneg_eq_emod _ _ hx (le_of_lt hpos)
  have h2 : 0 ≤ x % (2 ^ m * 2) := Int.emod_nonneg x (ne_of_gt hpos)
  have h3 : x % (2 ^ m * 2) < 2 ^ m * 2 := Int.emod_lt_of_pos x hpos
  rw [offAx, h1, sar_one_eq]
  omega

theorem dkAx_eq_sar_sar (m : Nat) (x : Int) : dkAx m x = shl (sar (sar x 1) m) m := by
  rw [dkAx, sar_sar, Nat.add_comm 1 m]

/-- When `x >> 1` is a multiple of `2^m`, the destination key is exactly
`x >> 1` (quantization is the identity on aligned keys). -/
theorem dkAx_of_dvd (m : Nat) (x : Int) (h : (2 : Int) ^ m ∣ sar x 1) :
    dkAx m x = sar x 1 := by
  rw [dkAx_eq_sar_sar, shl, sar_eq_ediv]
  exact Int.ediv_mul_cancel h

theorem dkAx_dvd (m : Nat) (x : Int) : (2 : Int) ^ m ∣ dkAx m x :=
  ⟨sar x (m + 1), by rw [dkAx, shl]; ring⟩

theorem dkAx_nonneg (m : Nat) (x : Int) (hx : 0 ≤ x) : 0 ≤ dkAx m x := by
  have := sar_nonneg x (m + 1) hx
  rw [dkAx, shl]
  positivity

/-- Division characterization: for `b > 0`,
`a = b * (a / b) + a % b` with `0 ≤ a % b < b`. -/
theorem ediv_char (a b : Int) (hb : 0 < b) :
    a = b * (a / b) + a % b ∧ 0 ≤ a % b ∧ a % b < b :=
  ⟨(Int.ediv_add_emod a b).symm, Int.emod_nonneg a (ne_of_gt hb), Int.emod_lt_of_pos a hb⟩

/-- Uniqueness of division: a decomposition with remainder in range is the
Euclidean one. -/
theorem ediv_emod_eq_of (a b q r : Int) (hb : 0 < b) (h : a = b * q + r) (h0 : 0 ≤ r)
    (hr : r < b) : a / b = q ∧ a % b = r :=
  (Int.ediv_emod_unique hb).mpr ⟨by rw [h]; ring, h0, hr⟩

/-- The per-axis coverage lemma: if the call at level `l` with source-key
component `σ` reads a source voxel `u` that the later call with source-key
component `y` (targeting the same source chunk) writes, then the
corresponding level-`l` call of the later column (source-key component
`y >> 1`) writes the destination voxel `v` that consumed `u`: it lands in
the same destination chunk and its offset box contains `v`.  All keys are
non-negative. -/
theorem coverageAx (m : Nat) (σ y v u w : Int)
    (hσ0 : 0 ≤ σ) (hy0 : 0 ≤ y)
    (hDK : dkAx m y = σ)
    (hv1 : dkAx m σ + offAx m σ ≤ v)
    (hv2 : v < dkAx m σ + offAx m σ + sar ((2 : Int) ^ m) 1)
    (hu : u = σ + 2 * (v - dkAx m σ - offAx m σ) + w)
    (hw : w = 0 ∨ w = 1)
    (huW1 : σ + offAx m y ≤ u) (huW2 : u < σ + offAx m y + sar ((2 : Int) ^ m) 1) :
    dkAx m (sar y 1) = dkAx m σ ∧
      dkAx m σ + offAx m (sar y 1) ≤ v ∧
      v < dkAx m σ + offAx m (sar y 1) + sar ((2 : Int) ^ m) 1 := by
  rcases Nat.eq_zero_or_pos m with hm | hm
  · subst hm
    simp only [pow_zero, sar_one_eq] at hv2 hv1
    omega
  obtain ⟨mp, rfl⟩ : ∃ mp, m = mp + 1 := ⟨m - 1, by omega⟩
  set P : Int := 2 ^ mp with hP
  have hPpos : 0 < P := by positivity
  have hQ : ((2 : Int) ^ (mp + 1 + 1)) = 4 * P := by rw [hP]; ring
  have hS : ((2 : Int) ^ (mp + 1)) = 2 * P := by rw [hP]; ring
  have hS2 : ((2 : Int) ^ (mp + 1)) * 2 = 4 * P := by rw [hP]; ring
  have hH : sar ((2 : Int) ^ (mp + 1)) 1 = P := by
    rw [sar_one_eq, hS]
    omega
  have hdky : dkAx (mp + 1) y = (y / (4 * P)) * (2 * P) := by
    rw [dkAx, shl, sar_eq_ediv, hQ, hS]
  have hoffy : offAx (mp + 1) y = (y % (4 * P)) / 2 := by
    rw [offAx, sar_one_eq, tmod_nonneg_eq_emod _ _ hy0 (by positivity), hS2]
  have hdkσ : dkAx (mp + 1) σ = (σ / (4 * P)) * (2 * P) := by
    rw [dkAx, shl, sar_eq_ediv, hQ, hS]
  have hdky2 : dkAx (mp + 1) (sar y 1) = ((y / 2) / (4 * P)) * (2 * P) := by
    rw [dkAx, shl, sar_eq_ediv, sar_one_eq, hQ, hS]
  have hoffy2 : offAx (mp + 1) (sar y 1) = ((y / 2) % (4 * P)) / 2 := by
    rw [offAx, sar_one_eq, tmod_nonneg_eq_emod _ _ (sar_nonneg y 1 hy0) (by positivity),
      sar_one_eq, hS2]
  obtain ⟨hyd, hρ0, hρlt⟩ := ediv_char y (4 * P) (by positivity)
  set t : Int := y / (4 * P) with ht
  set ρ : Int := y % (4 * P) with hρ
  have hσeq : σ = t * (2 * P) := by rw [← hDK, hdky]
  obtain ⟨htd, hε0, hεlt⟩ := ediv_char t 2 (by norm_num)
  set a : Int := t / 2 with ha
  set ε : Int := t % 2 with hε
  have hσdm : σ / (4 * P) = a ∧ σ % (4 * P) = ε * (2 * P) := by
    have hε1 : ε ≤ 1 := by omega
    refine ediv_emod_eq_of σ (4 * P) a (ε * (2 * P)) (by positivity) ?_
      (mul_nonneg hε0 (by positivity)) (by nlinarith)
    rw [hσeq, htd]
    ring
  obtain ⟨hρd, hρ20, hρ2lt⟩ := ediv_char ρ 2 (by norm_num)
  set r : Int := ρ / 2 with hr
  have hy2 : y / 2 = σ + r ∧ y % 2 = ρ % 2 := by
    refine ediv_emod_eq_of y 2 (σ + r) (ρ % 2) (by norm_num) ?_ hρ20 hρ2lt
    rw [hσeq]
    linear_combination hyd + hρd
  have hrnn : 0 ≤ r := by omega
  have hrS : r < 2 * P := by omega
  have hy2dm : (y / 2) / (4 * P) = a ∧ (y / 2) % (4 * P) = ε * (2 * P) + r := by
    have hε1 : ε ≤ 1 := by omega
    refine ediv_emod_eq_of (y / 2) (4 * P) a (ε * (2 * P) + r) (by positivity) ?_
      (add_nonneg (mul_nonneg hε0 (by positivity)) hrnn) (by nlinarith)
    rw [hy2.1, hσeq, htd]
    ring
  have hoσ : offAx (mp + 1) σ = ε * P := by
    have h1 : offAx (mp + 1) σ = (σ % (4 * P)) / 2 := by
      rw [offAx, sar_one_eq, tmod_nonneg_eq_emod _ _ hσ0 (by positivity), hS2]
    rw [h1, hσdm.2]
    have h2 : ε * (2 * P) = 2 * (ε * P) := by ring
    rw [h2, Int.mul_ediv_cancel_left _ (by norm_num)]
  have hoy2 : offAx (mp + 1) (sar y 1) = ε * P + r / 2 := by
    rw [hoffy2, hy2dm.2]
    have h2 : ε * (2 * P) + r = r + 2 * (ε * P) := by ring
    rw [h2, Int.add_mul_ediv_left _ _ (show (2 : Int) ≠ 0 by norm_num)]
    ring
  have hDk2 : dkAx (mp + 1) (sar y 1) = dkAx (mp + 1) σ := by
    rw [hdky2, hdkσ, hy2dm.1, hσdm.1]
  have hoffyr : offAx (mp + 1) y = r := by rw [hoffy]
  refine ⟨hDk2, ?_, ?_⟩
  · rw [hoy2, hdkσ, hσdm.1]
    rw [hdkσ, hσdm.1, hoσ] at hv1 hv2 hu
    rw [hoffyr] at huW1 huW2
    rw [hH] at hv2 huW2
    omega
  · rw [hoy2, hdkσ, hσdm.1, hH]
    rw [hdkσ, hσdm.1, hoσ] at hv1 hv2 hu
    rw [hoffyr] at huW1 huW2
    rw [hH] at hv2 huW2
    omega

/-! ### Association-list characterizations of the map operations -/

theorem lookup_cons_ite {α β : Type} [DecidableEq α] (k : α) (b : β) (es : List (α × β))
    (a : α) :
    ((k, b) :: es).lookup a = if a = k then some b else es.lookup a := by
  rw [List.lookup_cons]
  by_cases h : a = k
  · rw [beq_iff_eq.mpr h, if_pos h]
  · rw [beq_eq_false_iff_ne.mpr h, if_neg h]

theorem lookup_map_set {α β : Type} [DecidableEq α] (l : List (α × β)) (key : α) (b : β)
    (c : α) :
    (l.map (fun kv => if kv.1 = key then (key, b) else kv)).lookup c =
      if c = key ∧ (l.lookup key).isSome then some b else l.lookup c := by
  induction l with
  | nil => simp
  | cons kv rest ih =>
    obtain ⟨k0, b0⟩ := kv
    simp only [List.map_cons]
    by_cases h1 : k0 = key
    · subst h1
      by_cases h2 : c = k0 <;> simp [h2, lookup_cons_ite, ih]
    · have h1' : ¬ key = k0 := fun he => h1 he.symm
      rw [if_neg h1]
      by_cases h2 : c = k0
      · subst h2
        rw [lookup_cons_ite, if_pos rfl, if_neg (fun hand => h1 hand.1),
          lookup_cons_ite, if_pos rfl]
      · rw [lookup_cons_ite, if_neg h2, ih, lookup_cons_ite, if_neg h1',
          lookup_cons_ite, if_neg h2]

theorem set_chunk_lookup {n : Nat} {T Meta : Type} (mp : ChunkMap n T Meta) (key : PointN n)
    (ch : Chunk n T Meta) (c : PointN n) :
    (mp.set_chunk key ch).chunks.lookup c =
      if c = key ∧ (mp.chunks.lookup key).isSome then some ch else mp.chunks.lookup c :=
  lookup_map_set mp.chunks key ch c

theorem gmoia_fst {n : Nat} {T Meta : Type} (mp : ChunkMap n T Meta) (key : PointN n) :
    (mp.get_mut_chunk_or_insert_ambient key).1 =
      (mp.chunks.lookup key).getD (mp.newAmbientChunk key) := by
  unfold ChunkMap.get_mut_chunk_or_insert_ambient
  rcases h : mp.chunks.lookup key with _ | c <;> simp [h]

theorem gmoia_snd_chunks {n : Nat} {T Meta : Type} (mp : ChunkMap n T Meta) (key : PointN n) :
    (mp.get_mut_chunk_or_insert_ambient key).2.chunks =
      if (mp.chunks.lookup key).isSome then mp.chunks
      else (key, mp.newAmbientChunk key) :: mp.chunks := by
  unfold ChunkMap.get_mut_chunk_or_insert_ambient
  rcases h : mp.chunks.lookup key with _ | c <;> simp [h]

theorem gmoia_snd_fields {n : Nat} {T Meta : Type} (mp : ChunkMap n T Meta) (key : PointN n) :
    (mp.get_mut_chunk_or_insert_ambient key).2.chunk_shape = mp.chunk_shape ∧
    (mp.get_mut_chunk_or_insert_ambient key).2.ambient_value = mp.ambient_value ∧
    (mp.get_mut_chunk_or_insert_ambient key).2.default_chunk_metadata =
      mp.default_chunk_metadata := by
  unfold ChunkMap.get_mut_chunk_or_insert_ambient
  rcases h : mp.chunks.lookup key with _ | c <;> simp [h]

theorem gmoia_snd_lookup {n : Nat} {T Meta : Type} (mp : ChunkMap n T Meta)
    (key c : PointN n) :
    (mp.get_mut_chunk_or_insert_ambient key).2.chunks.lookup c =
      if c = key then some ((mp.get_mut_chunk_or_insert_ambient key).1)
      else mp.chunks.lookup c := by
  rw [gmoia_snd_chunks, gmoia_fst]
  by_cases hs : (mp.chunks.lookup key).isSome
  · rw [if_pos hs]
    by_cases hc : c = key
    · subst hc
      rw [if_pos rfl]
      obtain ⟨v, hv⟩ := Option.isSome_iff_exists.mp hs
      rw [hv]
      rfl
    · rw [if_neg hc]
  · rw [if_neg hs, lookup_cons_ite]
    by_cases hc : c = key
    · subst hc
      rw [if_pos rfl, if_pos rfl, Option.not_isSome_iff_eq_none.mp hs]
      rfl
    · rw [if_neg hc, if_neg hc]

/-! ### The geometry of one call at `lod_delta = 1` -/

/-- `for_source_chunk` at `lod_delta = 1` over the power-of-two chunk shape
`2^m` is component-wise `dkAx` / `offAx`. -/
theorem for_source_chunk_pshape (n : Nat) (m : Fin n → Nat) (hm : ∀ i, m i ≤ 30)
    (key : PointN n) :
    for_source_chunk n (pshape n m) key 1 = ⟨DKp n m key, OFFp n m key⟩ := by
  rw [for_source_chunk_components]
  congr 1
  · funext i
    have htz : i32TrailingZeros (pshape n m i) = m i := by
      show i32TrailingZeros ((2 : Int) ^ m i) = m i
      exact i32TrailingZeros_two_pow (m i) (by have := hm i; omega)
    rw [htz, toNat_coe_add_coe, Int.toNat_natCast]
    rfl

theorem samp_guard_iff (n : Nat) (m : Fin n → Nat) (key p : PointN n) :
    ((∀ i, 0 ≤ p i - DKp n m key i - OFFp n m key i ∧
        p i - DKp n m key i - OFFp n m key i < sar (pshape n m i) 1) ∧
      ExtentN.containsPt ⟨DKp n m key, pshape n m⟩ p) ↔ InRegion n m key p := by
  simp only [ExtentN.containsPt, InRegion, pshape]
  constructor
  · rintro ⟨h1, h2⟩
    exact ⟨fun i => by have a := h1 i; omega, h2⟩
  · rintro ⟨h1, h2⟩
    exact ⟨fun i => by have a := h1 i; omega, h2⟩

theorem fill_guard_iff (n : Nat) (m : Fin n → Nat) (key p : PointN n) :
    (ExtentN.containsPt
        ⟨fun i => DKp n m key i + OFFp n m key i, psar n (pshape n m) 1⟩ p ∧
      ExtentN.containsPt ⟨DKp n m key, pshape n m⟩ p) ↔ InRegion n m key p := by
  simp only [ExtentN.containsPt, InRegion, psar, pshape]

/-- The extent and values of the array one call leaves in the destination
chunk, when the destination chunk's extent is the canonical `[DK, DK + 2^m)`:
the extent is unchanged and exactly the write region is overwritten with
`writtenValue`. -/
theorem step_array_extent_values {n : Nat} {T Meta : Type} (samp : ChunkDownsampler n T)
    (m : Fin n → Nat) (key : PointN n) (srcm : ChunkMap n T Meta) (da : ArrayN n T)
    (hE : da.extent = ⟨DKp n m key, pshape n m⟩) :
    (@stepArray n T Meta samp m key srcm da).extent = ⟨DKp n m key, pshape n m⟩ ∧
      ∀ p, (@stepArray n T Meta samp m key srcm da).values p =
        if InRegion n m key p then writtenValue samp m key srcm p else da.values p := by
  unfold stepArray writtenValue ChunkMap.get_mut_chunk
  rcases hsl : srcm.chunks.lookup key with _ | sc
  · simp only [ArrayN.fill_extent]
    refine ⟨hE, fun p => ?_⟩
    rw [hE]
    by_cases hp : InRegion n m key p
    · rw [if_pos hp, if_pos ((fill_guard_iff n m key p).mpr hp)]
    · rw [if_neg hp, if_neg (fun hg => hp ((fill_guard_iff n m key p).mp hg))]
  · simp only [ChunkDownsampler.downsample]
    refine ⟨hE, fun p => ?_⟩
    rw [hE]
    by_cases hp : InRegion n m key p
    · rw [if_pos hp, if_pos ((samp_guard_iff n m key p).mpr hp)]
    · rw [if_neg hp, if_neg (fun hg => hp ((samp_guard_iff n m key p).mp hg))]

/-- `downsample_step` over a power-of-two source shape, re-expressed through
`stepArray` at the destination key `DKp key`. -/
theorem downsample_step_eq_stepArray {n : Nat} {T Meta : Type} (samp : ChunkDownsampler n T)
    (m : Fin n → Nat) (hm : ∀ i, m i ≤ 30) (key : PointN n)
    (srcm dstm : ChunkMap n T Meta) (hshape : srcm.chunk_shape = pshape n m) :
    downsample_step samp key srcm dstm =
      (dstm.get_mut_chunk_or_insert_ambient (DKp n m key)).2.set_chunk (DKp n m key)
        { (dstm.get_mut_chunk_or_insert_ambient (DKp n m key)).1 with
          array := stepArray samp m key srcm
            (dstm.get_mut_chunk_or_insert_ambient (DKp n m key)).1.array } := by
  simp only [downsample_step, stepArray, hshape, for_source_chunk_pshape n m hm key]

theorem downsample_step_fields {n : Nat} {T Meta : Type} (samp : ChunkDownsampler n T)
    (m : Fin n → Nat) (hm : ∀ i, m i ≤ 30) (key : PointN n)
    (srcm dstm : ChunkMap n T Meta) (hshape : srcm.chunk_shape = pshape n m) :
    (downsample_step samp key srcm dstm).chunk_shape = dstm.chunk_shape ∧
    (downsample_step samp key srcm dstm).ambient_value = dstm.ambient_value ∧
    (downsample_step samp key srcm dstm).default_chunk_metadata =
      dstm.default_chunk_metadata := by
  rw [downsample_step_eq_stepArray samp m hm key srcm dstm hshape]
  exact gmoia_snd_fields dstm (DKp n m key)

/-- The full characterization of one call's effect on the destination store:
the destination chunk `DKp key` afterwards exists, keeps (or receives the
default) metadata, has the canonical extent, and carries the written values
on the write region and the previous (or ambient) values elsewhere; no other
chunk changes. -/
theorem downsample_step_spec {n : Nat} {T Meta : Type} (samp : ChunkDownsampler n T)
    (m : Fin n → Nat) (hm : ∀ i, m i ≤ 30) (key : PointN n)
    (srcm dstm : ChunkMap n T Meta)
    (hshape : srcm.chunk_shape = pshape n m)
    (hdshape : dstm.chunk_shape = pshape n m)
    (hext : ∀ ch, dstm.chunks.lookup (DKp n m key) = some ch →
        ch.array.extent = ⟨DKp n m key, pshape n m⟩) :
    (∀ c, c ≠ DKp n m key →
        (downsample_step samp key srcm dstm).chunks.lookup c = dstm.chunks.lookup c) ∧
    ∃ ch', (downsample_step samp key srcm dstm).chunks.lookup (DKp n m key) = some ch' ∧
      ch'.metadata = (match dstm.chunks.lookup (DKp n m key) with
        | some ch => ch.metadata
        | none => dstm.default_chunk_metadata) ∧
      ch'.array.extent = ⟨DKp n m key, pshape n m⟩ ∧
      ∀ p, ch'.array.values p =
        if InRegion n m key p then writtenValue samp m key srcm p
        else (match dstm.chunks.lookup (DKp n m key) with
          | some ch => ch.array.values p
          | none => dstm.ambient_value) := by
  rw [downsample_step_eq_stepArray samp m hm key srcm dstm hshape]
  have hfst := gmoia_fst dstm (DKp n m key)
  have hsl : (dstm.get_mut_chunk_or_insert_ambient (DKp n m key)).2.chunks.lookup
      (DKp n m key) = some ((dstm.get_mut_chunk_or_insert_ambient (DKp n m key)).1) := by
    rw [gmoia_snd_lookup, if_pos rfl]
  have hE : (dstm.get_mut_chunk_or_insert_ambient (DKp n m key)).1.array.extent =
      ⟨DKp n m key, pshape n m⟩ := by
    rcases hdl : dstm.chunks.lookup (DKp n m key) with _ | ch0
    · rw [hfst, hdl]
      show (dstm.newAmbientChunk (DKp n m key)).array.extent = _
      unfold ChunkMap.newAmbientChunk
      rw [hdshape]
    · rw [hfst, hdl]
      exact hext ch0 hdl
  obtain ⟨hAE, hAV⟩ := step_array_extent_values samp m key srcm _ hE
  constructor
  · intro c hc
    rw [set_chunk_lookup]
    rw [if_neg (fun hand => hc hand.1)]
    rw [gmoia_snd_lookup, if_neg hc]
  · refine ⟨{ (dstm.get_mut_chunk_or_insert_ambient (DKp n m key)).1 with
        array := stepArray samp m key srcm
          (dstm.get_mut_chunk_or_insert_ambient (DKp n m key)).1.array }, ?_, ?_, ?_, ?_⟩
    · rw [set_chunk_lookup, if_pos ⟨rfl, by rw [hsl]; rfl⟩]
    · show (dstm.get_mut_chunk_or_insert_ambient (DKp n m key)).1.metadata = _
      rcases hdl : dstm.chunks.lookup (DKp n m key) with _ | ch0
      · rw [hfst, hdl]
        rfl
      · rw [hfst, hdl]
        rfl
    · exact hAE
    · intro p
      show (stepArray samp m key srcm
          (dstm.get_mut_chunk_or_insert_ambient (DKp n m key)).1.array).values p = _
      rw [hAV p]
      rcases hdl : dstm.chunks.lookup (DKp n m key) with _ | ch0
      · rw [hfst, hdl]
        rfl
      · rw [hfst, hdl]
        rfl

/-- `downsample_chunk` from level `s` to level `s + 1` (the only pattern the
traversals use) succeeds whenever both levels exist, and replaces level
`s + 1` with `downsample_step` applied to the two levels. -/
theorem downsample_chunk_succ {n : Nat} {T Meta : Type} (pyr : ChunkPyramid n T Meta)
    (samp : ChunkDownsampler n T) (key : PointN n) (s : Nat)
    (srcm dstm : ChunkMap n T Meta)
    (hsrc : pyr.levels[s]? = some srcm) (hdst : pyr.levels[s + 1]? = some dstm) :
    downsample_chunk pyr samp key s (s + 1) =
      some ⟨pyr.levels.set (s + 1) (downsample_step samp key srcm dstm)⟩ := by
  have hidx : 2 * (s + 1) - s - 1 = s + 1 := by omega
  have htlm : two_levels_mut pyr.levels s (s + 1) = some (srcm, dstm) := by
    rw [two_levels_mut_eq_bind pyr.levels s (s + 1) (by omega), hsrc, hidx, hdst]
    rfl
  have hbidx : two_levels_mut_b_index s (s + 1) = s + 1 := by
    unfold two_levels_mut_b_index
    omega
  have hδ : s + 1 - s = 1 := by omega
  unfold downsample_chunk
  rw [if_pos (by omega), htlm, hbidx, hδ]
  rfl

/-! ### Utility lemmas for the idempotence development -/

theorem getElem?_set_self {α : Type} (l : List α) (k : Nat) (x : α) (h : k < l.length) :
    (l.set k x)[k]? = some x := by
  rw [List.getElem?_set_self', List.getElem?_eq_getElem h]
  rfl

theorem getElem?_set_ne {α : Type} (l : List α) (k j : Nat) (x : α) (h : j ≠ k) :
    (l.set k x)[j]? = l[j]? := by
  rw [List.getElem?_set_ne (fun hh => h hh.symm)]

theorem psar_nonneg (n : Nat) (p : PointN n) (k : Nat) (h : ∀ i, 0 ≤ p i) :
    ∀ i, 0 ≤ psar n p k i :=
  fun i => sar_nonneg (p i) k (h i)

theorem futureWrite_cons {n : Nat} (m : Fin n → Nat) (call : DownsampleCall n)
    (calls : List (DownsampleCall n)) (j : Nat) (c p : PointN n) :
    FutureWrite n m (call :: calls) j c p ↔
      writeRegion n m call j c p ∨ FutureWrite n m calls j c p := by
  unfold FutureWrite
  constructor
  · rintro ⟨c2, hc2, hw⟩
    rcases List.mem_cons.mp hc2 with h | h
    · subst h
      exact Or.inl hw
    · exact Or.inr ⟨c2, h, hw⟩
  · rintro (hw | ⟨c2, hc2, hw⟩)
    · exact ⟨call, List.mem_cons_self _ _, hw⟩
    · exact ⟨c2, List.mem_cons_of_mem _ hc2, hw⟩

theorem futureCreate_cons {n : Nat} (m : Fin n → Nat) (call : DownsampleCall n)
    (calls : List (DownsampleCall n)) (j : Nat) (c : PointN n) :
    FutureCreate n m (call :: calls) j c ↔
      (j = call.2.2 ∧ c = DKp n m call.1) ∨ FutureCreate n m calls j c := by
  unfold FutureCreate
  constructor
  · rintro ⟨c2, hc2, hw⟩
    rcases List.mem_cons.mp hc2 with h | h
    · subst h
      exact Or.inl hw
    · exact Or.inr ⟨c2, h, hw⟩
  · rintro (hw | ⟨c2, hc2, hw⟩)
    · exact ⟨call, List.mem_cons_self _ _, hw⟩
    · exact ⟨c2, List.mem_cons_of_mem _ hc2, hw⟩

theorem wfcalls_nonneg {n L : Nat} :
    ∀ (calls : List (DownsampleCall n)), WFCalls n L calls →
      ∀ call ∈ calls, ∀ i, 0 ≤ call.1 i := by
  intro calls
  induction calls with
  | nil =>
    intro _ call hc
    cases hc
  | cons c rest ih =>
    obtain ⟨key, s, d⟩ := c
    rintro ⟨hd, hL, hnn, hstruct, hrest⟩ call hc
    rcases List.mem_cons.mp hc with h | h
    · subst h
      exact hnn
    · exact ih hrest call h

theorem hasMaskers_mem {n L : Nat} :
    ∀ (calls : List (DownsampleCall n)), HasMaskers n L calls →
      ∀ c2 ∈ calls, c2.2.2 + 1 < L → (psar n c2.1 1, c2.2.2, c2.2.2 + 1) ∈ calls := by
  intro calls
  induction calls with
  | nil =>
    intro _ c2 hc2
    cases hc2
  | cons c rest ih =>
    intro h c2 hc2 hlt
    rcases List.mem_cons.mp hc2 with he | he
    · subst he
      exact List.mem_cons_of_mem _ (h.1 hlt)
    · exact List.mem_cons_of_mem _ (ih h.2 c2 he hlt)

theorem futureCreate_cons_ne {n : Nat} (m : Fin n → Nat) (call : DownsampleCall n)
    (calls : List (DownsampleCall n)) (j : Nat) (c : PointN n)
    (h : ¬ (j = call.2.2 ∧ c = DKp n m call.1)) :
    FutureCreate n m (call :: calls) j c ↔ FutureCreate n m calls j c := by
  rw [futureCreate_cons]
  constructor
  · rintro (hx | hx)
    · exact absurd hx h
    · exact hx
  · exact Or.inr

theorem futureWrite_cons_ne {n : Nat} (m : Fin n → Nat) (call : DownsampleCall n)
    (calls : List (DownsampleCall n)) (j : Nat) (c p : PointN n)
    (h : ¬ writeRegion n m call j c p) :
    FutureWrite n m (call :: calls) j c p ↔ FutureWrite n m calls j c p := by
  rw [futureWrite_cons]
  constructor
  · rintro (hx | hx)
    · exact absurd hx h
    · exact hx
  · exact Or.inr

/-- What a write region of a one-level-up call `(key, s, s+1)` pins down:
the level, the destination chunk, and membership of the voxel in the call's
`InRegion`. -/
theorem writeRegion_head_facts {n : Nat} (m : Fin n → Nat) (key : PointN n) (s j : Nat)
    (c p : PointN n) (h : writeRegion n m (key, s, s + 1) j c p) :
    j = s + 1 ∧ c = DKp n m key ∧ InRegion n m key p := by
  unfold writeRegion at h
  obtain ⟨h1, h2, h3, h4⟩ := h
  subst h2
  exact ⟨h1, rfl, h3, h4⟩

/-- The full-point coverage lemma: if the head call with source key `key`
reads a point `u` that a later call with source key `y` (writing into the
same source chunk `key`) covers, then that later column's next call — the
masker `(y >> 1, s, s + 1)` — writes the head call's destination voxel `p`:
same destination chunk, offset box containing `p`. -/
theorem region_cover {n : Nat} (m : Fin n → Nat) (key y p u w : PointN n) (s : Nat)
    (hkey0 : ∀ i, 0 ≤ key i) (hy0 : ∀ i, 0 ≤ y i)
    (hDK : DKp n m y = key)
    (hp : InRegion n m key p)
    (hu : ∀ i, u i = key i + 2 ^ (1 : Nat) * (p i - DKp n m key i - OFFp n m key i) + w i)
    (hw : ∀ i, 0 ≤ w i ∧ w i < 2 ^ (1 : Nat))
    (huW : ∀ i, key i + OFFp n m y i ≤ u i ∧
        u i < key i + OFFp n m y i + sar ((2 : Int) ^ m i) 1) :
    writeRegion n m (psar n y 1, s, s + 1) (s + 1) (DKp n m key) p := by
  obtain ⟨hp1, hp2⟩ := hp
  have h21 : (2 : Int) ^ (1 : Nat) = 2 := by norm_num
  have hax : ∀ i, dkAx (m i) (sar (y i) 1) = dkAx (m i) (key i) ∧
      dkAx (m i) (key i) + offAx (m i) (sar (y i) 1) ≤ p i ∧
      p i < dkAx (m i) (key i) + offAx (m i) (sar (y i) 1) + sar ((2 : Int) ^ m i) 1 := by
    intro i
    have hDKi : dkAx (m i) (y i) = key i := congrFun hDK i
    have h1 := hp1 i
    have h2 := hu i
    have h3 := hw i
    have h4 := huW i
    rw [h21] at h2 h3
    exact coverageAx (m i) (key i) (y i) (p i) (u i) (w i) (hkey0 i) (hy0 i) hDKi
      h1.1 h1.2 h2 (by omega) h4.1 h4.2
  unfold writeRegion
  refine ⟨rfl, ?_, ?_, hp2⟩
  · funext i
    exact ((hax i).1).symm
  · intro i
    exact (hax i).2

/-- If the written value of the head call differs between the two runs, a
remaining call overwrites the destination voxel. -/
theorem written_value_agree {n : Nat} {T Meta : Type} (samp : ChunkDownsampler n T)
    (hsamp : samp.BlockConfined) (m : Fin n → Nat) (key p : PointN n)
    (σs τs : ChunkMap n T Meta) (rest : List (DownsampleCall n)) (s : Nat)
    (hamb : τs.ambient_value = σs.ambient_value)
    (hkey0 : ∀ i, 0 ≤ key i)
    (hp : InRegion n m key p)
    (hmask : ∀ c2 ∈ rest, c2.2.2 = s → (psar n c2.1 1, s, s + 1) ∈ rest)
    (hnn : ∀ c2 ∈ rest, ∀ i, 0 ≤ c2.1 i)
    (hcase : (σs.chunks.lookup key = none ∧ τs.chunks.lookup key = none) ∨
      (∃ chσ chτ, σs.chunks.lookup key = some chσ ∧ τs.chunks.lookup key = some chτ ∧
        chσ.array.extent = ⟨key, pshape n m⟩ ∧ chτ.array.extent = ⟨key, pshape n m⟩ ∧
        ∀ u, chτ.array.values u ≠ chσ.array.values u → FutureWrite n m rest s key u))
    (hne : writtenValue samp m key τs p ≠ writtenValue samp m key σs p) :
    FutureWrite n m rest (s + 1) (DKp n m key) p := by
  unfold writtenValue at hne
  rcases hcase with ⟨hσn, hτn⟩ | ⟨chσ, chτ, hσ, hτ, hEσ, hEτ, hdiv⟩
  · rw [hσn, hτn] at hne
    exact absurd hamb hne
  · rw [hσ, hτ] at hne
    by_cases hall : ∀ w : PointN n, (∀ i, 0 ≤ w i ∧ w i < 2 ^ (1 : Nat)) →
        chτ.array.values (fun i => chτ.array.extent.minimum i +
            2 ^ (1 : Nat) * (p i - DKp n m key i - OFFp n m key i) + w i) =
          chσ.array.values (fun i => chσ.array.extent.minimum i +
            2 ^ (1 : Nat) * (p i - DKp n m key i - OFFp n m key i) + w i)
    · exact absurd (hsamp 1 _ _ hall) hne
    · push_neg at hall
      obtain ⟨w0, hw0, hneq⟩ := hall
      have hminσ : chσ.array.extent.minimum = key := by rw [hEσ]
      have hminτ : chτ.array.extent.minimum = key := by rw [hEτ]
      rw [hminσ, hminτ] at hneq
      obtain ⟨c2, hc2mem, hc2w⟩ := hdiv _ hneq
      unfold writeRegion at hc2w
      obtain ⟨hc2j, hc2c, hc2box, hc2chunk⟩ := hc2w
      have hmaskmem := hmask c2 hc2mem hc2j.symm
      have hregion := region_cover m key c2.1 p
        (fun i => key i + 2 ^ (1 : Nat) * (p i - DKp n m key i - OFFp n m key i) + w0 i)
        w0 s hkey0 (hnn c2 hc2mem) hc2c.symm hp (fun i => rfl) hw0 hc2box
      exact ⟨(psar n c2.1 1, s, s + 1), hmaskmem, hregion⟩

/-- The inductive step of the replay argument: the head call succeeds on
both sides, keeps the level count, and re-establishes the invariant for the
remaining calls. -/
theorem rel_step {n : Nat} {T Meta : Type} (samp : ChunkDownsampler n T)
    (hsamp : samp.BlockConfined) (m : Fin n → Nat) (hm : ∀ i, m i ≤ 30)
    (key : PointN n) (s : Nat) (rest : List (DownsampleCall n))
    (σp τp : ChunkPyramid n T Meta)
    (hWF : WFCalls n σp.levels.length ((key, s, s + 1) :: rest))
    (hHM : HasMaskers n σp.levels.length ((key, s, s + 1) :: rest))
    (hRel : Rel n T Meta m ((key, s, s + 1) :: rest) σp τp) :
    ∃ σ1 τ1, downsample_chunk σp samp key s (s + 1) = some σ1 ∧
      downsample_chunk τp samp key s (s + 1) = some τ1 ∧
      σ1.levels.length = σp.levels.length ∧
      Rel n T Meta m rest σ1 τ1 := by
  obtain ⟨-, hsL, hkey0, hstruct, hWFrest⟩ := hWF
  have hlen := hRel.len
  obtain ⟨σs, hσs⟩ : ∃ x, σp.levels[s]? = some x :=
    ⟨_, List.getElem?_eq_getElem (by omega)⟩
  obtain ⟨σs1, hσs1⟩ : ∃ x, σp.levels[s + 1]? = some x :=
    ⟨_, List.getElem?_eq_getElem hsL⟩
  obtain ⟨τs, hτs⟩ : ∃ x, τp.levels[s]? = some x :=
    ⟨_, List.getElem?_eq_getElem (by omega)⟩
  obtain ⟨τs1, hτs1⟩ : ∃ x, τp.levels[s + 1]? = some x :=
    ⟨_, List.getElem?_eq_getElem (by omega)⟩
  have hshσs : σs.chunk_shape = pshape n m := hRel.shape s σs hσs
  have hshσs1 : σs1.chunk_shape = pshape n m := hRel.shape (s + 1) σs1 hσs1
  have hfls := hRel.fields s σs τs hσs hτs
  have hfls1 := hRel.fields (s + 1) σs1 τs1 hσs1 hτs1
  have hshτs : τs.chunk_shape = pshape n m := by rw [hfls.1, hshσs]
  have hshτs1 : τs1.chunk_shape = pshape n m := by rw [hfls1.1, hshσs1]
  have hextDσ : ∀ ch, σs1.chunks.lookup (DKp n m key) = some ch →
      ch.array.extent = ⟨DKp n m key, pshape n m⟩ :=
    fun ch h => hRel.extσ (s + 1) σs1 (by omega) hσs1 (DKp n m key) ch h
  have hextDτ : ∀ ch, τs1.chunks.lookup (DKp n m key) = some ch →
      ch.array.extent = ⟨DKp n m key, pshape n m⟩ :=
    fun ch h => hRel.extτ (s + 1) τs1 (by omega) hτs1 (DKp n m key) ch h
  obtain ⟨hOσ, chσ', hLσ, hMσ, hEσ, hVσ⟩ :=
    downsample_step_spec samp m hm key σs σs1 hshσs hshσs1 hextDσ
  obtain ⟨hOτ, chτ', hLτ, hMτ, hEτ, hVτ⟩ :=
    downsample_step_spec samp m hm key τs τs1 hshτs hshτs1 hextDτ
  have hfσS := downsample_step_fields samp m hm key σs σs1 hshσs
  have hfτS := downsample_step_fields samp m hm key τs τs1 hshτs
  have hstepσ := downsample_chunk_succ σp samp key s σs σs1 hσs hσs1
  have hstepτ := downsample_chunk_succ τp samp key s τs τs1 hτs hτs1
  have hgσe : ∀ j : Nat, j ≠ s + 1 →
      (σp.levels.set (s + 1) (downsample_step samp key σs σs1))[j]? = σp.levels[j]? :=
    fun j hj => getElem?_set_ne _ _ _ _ hj
  have hgσs1 : (σp.levels.set (s + 1) (downsample_step samp key σs σs1))[s + 1]? =
      some (downsample_step samp key σs σs1) := getElem?_set_self _ _ _ hsL
  have hgτe : ∀ j : Nat, j ≠ s + 1 →
      (τp.levels.set (s + 1) (downsample_step samp key τs τs1))[j]? = τp.levels[j]? :=
    fun j hj => getElem?_set_ne _ _ _ _ hj
  have hgτs1 : (τp.levels.set (s + 1) (downsample_step samp key τs τs1))[s + 1]? =
      some (downsample_step samp key τs τs1) := getElem?_set_self _ _ _ (by omega)
  have hFWne : ∀ (j : Nat) (c p : PointN n), ¬ (j = s + 1 ∧ c = DKp n m key) →
      FutureWrite n m ((key, s, s + 1) :: rest) j c p → FutureWrite n m rest j c p := by
    intro j c p hne hfw
    rcases (futureWrite_cons m _ rest j c p).mp hfw with hw | hw
    · obtain ⟨h1, h2, -⟩ := writeRegion_head_facts m key s j c p hw
      exact absurd ⟨h1, h2⟩ hne
    · exact hw
  have hFWout : ∀ p : PointN n, ¬ InRegion n m key p →
      FutureWrite n m ((key, s, s + 1) :: rest) (s + 1) (DKp n m key) p →
      FutureWrite n m rest (s + 1) (DKp n m key) p := by
    intro p hpin hfw
    rcases (futureWrite_cons m _ rest _ _ p).mp hfw with hw | hw
    · exact absurd (writeRegion_head_facts m key s _ _ p hw).2.2 hpin
    · exact hw
  have hFCne : ∀ (j : Nat) (c : PointN n), ¬ (j = s + 1 ∧ c = DKp n m key) →
      (FutureCreate n m ((key, s, s + 1) :: rest) j c ↔ FutureCreate n m rest j c) :=
    fun j c hne => futureCreate_cons_ne m _ rest j c (fun hand => hne ⟨hand.1, hand.2⟩)
  refine ⟨⟨σp.levels.set (s + 1) (downsample_step samp key σs σs1)⟩,
    ⟨τp.levels.set (s + 1) (downsample_step samp key τs τs1)⟩, hstepσ, hstepτ,
    by dsimp only; simp, ?_⟩
  refine ⟨?_, ?_, ?_, ?_, ?_, ?_, ?_, ?_, ?_, ?_, ?_⟩
  · dsimp only
    simp [hlen]
  · dsimp only
    rw [hgτe 0 (by omega), hgσe 0 (by omega)]
    exact hRel.lev0
  · intro j a b hja hjb
    dsimp only at hja hjb
    by_cases hj : j = s + 1
    · subst hj
      rw [hgσs1] at hja
      rw [hgτs1] at hjb
      injection hja with hja'
      injection hjb with hjb'
      subst hja'
      subst hjb'
      exact ⟨by rw [hfτS.1, hfσS.1, hfls1.1], by rw [hfτS.2.1, hfσS.2.1, hfls1.2.1],
        by rw [hfτS.2.2, hfσS.2.2, hfls1.2.2]⟩
    · rw [hgσe j hj] at hja
      rw [hgτe j hj] at hjb
      exact hRel.fields j a b hja hjb
  · intro j a hja
    dsimp only at hja
    by_cases hj : j = s + 1
    · subst hj
      rw [hgσs1] at hja
      injection hja with hja'
      subst hja'
      rw [hfσS.1, hshσs1]
    · rw [hgσe j hj] at hja
      exact hRel.shape j a hja
  · intro j a h1j hja c ch hch
    dsimp only at hja
    by_cases hj : j = s + 1
    · subst hj
      rw [hgσs1] at hja
      injection hja with hja'
      subst hja'
      by_cases hc : c = DKp n m key
      · subst hc
        rw [hLσ] at hch
        injection hch with hch'
        subst hch'
        exact hEσ
      · rw [hOσ c hc] at hch
        exact hRel.extσ (s + 1) σs1 (by omega) hσs1 c ch hch
    · rw [hgσe j hj] at hja
      exact hRel.extσ j a h1j hja c ch hch
  · intro j b h1j hjb c ch hch
    dsimp only at hjb
    by_cases hj : j = s + 1
    · subst hj
      rw [hgτs1] at hjb
      injection hjb with hjb'
      subst hjb'
      by_cases hc : c = DKp n m key
      · subst hc
        rw [hLτ] at hch
        injection hch with hch'
        subst hch'
        exact hEτ
      · rw [hOτ c hc] at hch
        exact hRel.extτ (s + 1) τs1 (by omega) hτs1 c ch hch
    · rw [hgτe j hj] at hjb
      exact hRel.extτ j b h1j hjb c ch hch
  · intro j a h1j hja c hcs
    dsimp only at hja
    by_cases hj : j = s + 1
    · subst hj
      rw [hgσs1] at hja
      injection hja with hja'
      subst hja'
      by_cases hc : c = DKp n m key
      · subst hc
        exact fun i => dkAx_dvd (m i) (key i)
      · rw [hOσ c hc] at hcs
        exact hRel.mulσ (s + 1) σs1 (by omega) hσs1 c hcs
    · rw [hgσe j hj] at hja
      exact hRel.mulσ j a h1j hja c hcs
  · intro j a b h1j hja hjb c
    dsimp only at hja hjb
    by_cases hj : j = s + 1
    · subst hj
      rw [hgσs1] at hja
      rw [hgτs1] at hjb
      injection hja with hja'
      injection hjb with hjb'
      subst hja'
      subst hjb'
      by_cases hc : c = DKp n m key
      · subst hc
        rw [hLσ, hLτ]
        simp
      · rw [hOσ c hc, hOτ c hc]
        have hold := hRel.pres (s + 1) σs1 τs1 (by omega) hσs1 hτs1 c
        rwa [hFCne (s + 1) c (fun hand => hc hand.2)] at hold
    · rw [hgσe j hj] at hja
      rw [hgτe j hj] at hjb
      have hold := hRel.pres j a b h1j hja hjb c
      rwa [hFCne j c (fun hand => hj hand.1)] at hold
  · intro j a b h1j hja hjb c chA chB hlA hlB
    dsimp only at hja hjb
    by_cases hj : j = s + 1
    case neg =>
      rw [hgσe j hj] at hja
      rw [hgτe j hj] at hjb
      have hold := hRel.common j a b h1j hja hjb c chA chB hlA hlB
      exact ⟨hold.1, fun p hdv => hFWne j c p (fun hand => hj hand.1) (hold.2 p hdv)⟩
    case pos =>
      subst hj
      rw [hgσs1] at hja
      rw [hgτs1] at hjb
      injection hja with hja'
      injection hjb with hjb'
      subst hja'
      subst hjb'
      by_cases hc : c = DKp n m key
      case neg =>
        rw [hOσ c hc] at hlA
        rw [hOτ c hc] at hlB
        have hold := hRel.common (s + 1) σs1 τs1 (by omega) hσs1 hτs1 c chA chB hlA hlB
        exact ⟨hold.1, fun p hdv => hFWne (s + 1) c p (fun hand => hc hand.2) (hold.2 p hdv)⟩
      case pos =>
        subst hc
        rw [hLσ] at hlA
        rw [hLτ] at hlB
        injection hlA with hlA'
        injection hlB with hlB'
        subst hlA'
        subst hlB'
        constructor
        · rw [hMσ, hMτ]
          rcases hσdl : σs1.chunks.lookup (DKp n m key) with _ | c0σ
          · rcases hτdl : τs1.chunks.lookup (DKp n m key) with _ | c0τ
            · exact hfls1.2.2
            · exact (hRel.fresh (s + 1) σs1 τs1 (by omega) hσs1 hτs1 _ c0τ hσdl hτdl).1
          · have hτsome : (τs1.chunks.lookup (DKp n m key)).isSome :=
              (hRel.pres (s + 1) σs1 τs1 (by omega) hσs1 hτs1 _).mpr
                (Or.inl (by rw [hσdl]; rfl))
            obtain ⟨c0τ, hτdl⟩ := Option.isSome_iff_exists.mp hτsome
            rw [hτdl]
            exact (hRel.common (s + 1) σs1 τs1 (by omega) hσs1 hτs1 _ c0σ c0τ hσdl hτdl).1
        · intro p hdv
          rw [hVσ p, hVτ p] at hdv
          by_cases hpin : InRegion n m key p
          case pos =>
            rw [if_pos hpin, if_pos hpin] at hdv
            rcases Nat.eq_zero_or_pos s with hs0 | hs1
            · subst hs0
              have hστ : τs = σs := by
                have h0 := hRel.lev0
                rw [hσs, hτs] at h0
                injection h0
              rw [hστ] at hdv
              exact absurd rfl hdv
            · refine written_value_agree samp hsamp m key p σs τs rest s hfls.2.1 hkey0
                hpin ?_ ?_ ?_ hdv
              · intro c2 hmem h22
                have hmem2 := hasMaskers_mem rest hHM.2 c2 hmem (by rw [h22]; exact hsL)
                rw [h22] at hmem2
                exact hmem2
              · exact fun c2 hmem => wfcalls_nonneg rest hWFrest c2 hmem
              · by_cases halign : ∀ i, (2 : Int) ^ m i ∣ key i
                case pos =>
                  have hσsome := hRel.aligned key s rest rfl hs1 halign σs hσs
                  obtain ⟨chσs, hσk⟩ := Option.isSome_iff_exists.mp hσsome
                  have hτsome : (τs.chunks.lookup key).isSome :=
                    (hRel.pres s σs τs hs1 hσs hτs key).mpr (Or.inl hσsome)
                  obtain ⟨chτs, hτk⟩ := Option.isSome_iff_exists.mp hτsome
                  refine Or.inr ⟨chσs, chτs, hσk, hτk,
                    hRel.extσ s σs hs1 hσs key chσs hσk,
                    hRel.extτ s τs hs1 hτs key chτs hτk, ?_⟩
                  intro u hnequ
                  have hfw := (hRel.common s σs τs hs1 hσs hτs key chσs chτs hσk hτk).2 u hnequ
                  exact hFWne s key u
                    (fun hand => absurd hand.1 (Nat.ne_of_lt (Nat.lt_succ_self s))) hfw
                case neg =>
                  push_neg at halign
                  obtain ⟨i0, hi0⟩ := halign
                  have hσnone : σs.chunks.lookup key = none := by
                    rcases hq : σs.chunks.lookup key with _ | cq
                    · rfl
                    · exact absurd (hRel.mulσ s σs hs1 hσs key (by rw [hq]; rfl) i0) hi0
                  have hτnone : τs.chunks.lookup key = none := by
                    rcases hq : τs.chunks.lookup key with _ | cq
                    · rfl
                    · have hqs : (τs.chunks.lookup key).isSome := by rw [hq]; rfl
                      rcases (hRel.pres s σs τs hs1 hσs hτs key).mp hqs with hx | hx
                      · rw [hσnone] at hx
                        cases hx
                      · unfold FutureCreate at hx
                        obtain ⟨c2, hc2, -, hceq⟩ := hx
                        refine absurd ?_ hi0
                        rw [congrFun hceq i0]
                        exact dkAx_dvd (m i0) (c2.1 i0)
                  exact Or.inl ⟨hσnone, hτnone⟩
          case neg =>
            rw [if_neg hpin, if_neg hpin] at hdv
            rcases hσdl : σs1.chunks.lookup (DKp n m key) with _ | c0σ
            · rw [hσdl] at hdv
              rcases hτdl : τs1.chunks.lookup (DKp n m key) with _ | c0τ
              · rw [hτdl] at hdv
                exact absurd hfls1.2.1 hdv
              · rw [hτdl] at hdv
                have hfw := (hRel.fresh (s + 1) σs1 τs1 (by omega) hσs1 hτs1 _ c0τ
                  hσdl hτdl).2 p hdv
                exact hFWout p hpin hfw
            · rw [hσdl] at hdv
              have hτsome : (τs1.chunks.lookup (DKp n m key)).isSome :=
                (hRel.pres (s + 1) σs1 τs1 (by omega) hσs1 hτs1 _).mpr
                  (Or.inl (by rw [hσdl]; rfl))
              obtain ⟨c0τ, hτdl⟩ := Option.isSome_iff_exists.mp hτsome
              rw [hτdl] at hdv
              have hfw := (hRel.common (s + 1) σs1 τs1 (by omega) hσs1 hτs1 _ c0σ c0τ
                hσdl hτdl).2 p hdv
              exact hFWout p hpin hfw
  · intro j a b h1j hja hjb c chB hlA hlB
    dsimp only at hja hjb
    by_cases hj : j = s + 1
    case pos =>
      subst hj
      rw [hgσs1] at hja
      rw [hgτs1] at hjb
      injection hja with hja'
      injection hjb with hjb'
      subst hja'
      subst hjb'
      have hc : c ≠ DKp n m key := by
        intro he
        rw [he, hLσ] at hlA
        cases hlA
      rw [hOσ c hc] at hlA
      rw [hOτ c hc] at hlB
      have hold := hRel.fresh (s + 1) σs1 τs1 (by omega) hσs1 hτs1 c chB hlA hlB
      constructor
      · rw [hold.1, hfσS.2.2]
      · intro p hdv
        rw [hfσS.2.1] at hdv
        exact hFWne (s + 1) c p (fun hand => hc hand.2) (hold.2 p hdv)
    case neg =>
      rw [hgσe j hj] at hja
      rw [hgτe j hj] at hjb
      have hold := hRel.fresh j a b h1j hja hjb c chB hlA hlB
      exact ⟨hold.1, fun p hdv => hFWne j c p (fun hand => hj hand.1) (hold.2 p hdv)⟩
  · intro key2 s2 r2 hrest h1s2 halign2 a hja
    dsimp only at hja
    rcases hstruct with hnil | ⟨r2x, hr⟩ | ⟨k2x, r2x, hr⟩
    · rw [hnil] at hrest
      cases hrest
    · rw [hr] at hrest
      injection hrest with hhead htail
      have hk2 : psar n key 1 = key2 := congrArg Prod.fst hhead
      have hs2 : s + 1 = s2 := congrArg Prod.fst (congrArg Prod.snd hhead)
      subst hs2
      rw [hgσs1] at hja
      injection hja with hja'
      subst hja'
      have hDK2 : DKp n m key = key2 := by
        rw [← hk2]
        funext i
        have hdvd : (2 : Int) ^ m i ∣ sar (key i) 1 := by
          have hh := halign2 i
          rw [← hk2] at hh
          exact hh
        exact dkAx_of_dvd (m i) (key i) hdvd
      rw [← hDK2, hLσ]
      rfl
    · rw [hr] at hrest
      injection hrest with hhead htail
      have hs20 : (0 : Nat) = s2 := congrArg Prod.fst (congrArg Prod.snd hhead)
      omega

/-- Running all remaining calls on both sides: the invariant at the end has
no remaining calls. -/
theorem rel_run {n : Nat} {T Meta : Type} (samp : ChunkDownsampler n T)
    (hsamp : samp.BlockConfined) (m : Fin n → Nat) (hm : ∀ i, m i ≤ 30) :
    ∀ (calls : List (DownsampleCall n)) (σp τp σq : ChunkPyramid n T Meta),
      WFCalls n σp.levels.length calls →
      HasMaskers n σp.levels.length calls →
      Rel n T Meta m calls σp τp →
      apply_downsample_calls samp calls σp = some σq →
      ∃ τq, apply_downsample_calls samp calls τp = some τq ∧
        Rel n T Meta m [] σq τq := by
  intro calls
  induction calls with
  | nil =>
    intro σp τp σq hWF hHM hRel happ
    unfold apply_downsample_calls at happ
    injection happ with h
    subst h
    exact ⟨τp, rfl, hRel⟩
  | cons c rest ih =>
    intro σp τp σq hWF hHM hRel happ
    obtain ⟨key, s, d⟩ := c
    have hd : d = s + 1 := hWF.1
    subst hd
    obtain ⟨σ1, τ1, hsσ, hsτ, hlen1, hRel1⟩ :=
      rel_step samp hsamp m hm key s rest σp τp hWF hHM hRel
    unfold apply_downsample_calls at happ
    rw [hsσ] at happ
    have happ2 : apply_downsample_calls samp rest σ1 = some σq := happ
    obtain ⟨τq, happτ, hRelq⟩ := ih σ1 τ1 σq
      (by rw [hlen1]; exact hWF.2.2.2.2) (by rw [hlen1]; exact hHM.2) hRel1 happ2
    refine ⟨τq, ?_, hRelq⟩
    unfold apply_downsample_calls
    rw [hsτ]
    exact happτ

/-- Inversion of a successful adjacent-level `downsample_chunk`: both levels
exist and the result replaces level `s + 1` with `downsample_step`. -/
theorem downsample_chunk_succ_inv {n : Nat} {T Meta : Type}
    (pyr σ1 : ChunkPyramid n T Meta) (samp : ChunkDownsampler n T)
    (key : PointN n) (s : Nat)
    (h : downsample_chunk pyr samp key s (s + 1) = some σ1) :
    ∃ σs σs1, s + 1 < pyr.levels.length ∧ pyr.levels[s]? = some σs ∧
      pyr.levels[s + 1]? = some σs1 ∧
      σ1 = ⟨pyr.levels.set (s + 1) (downsample_step samp key σs σs1)⟩ := by
  have hlt : s + 1 < pyr.levels.length := by
    by_contra hge
    rw [(downsample_chunk_eq_none_iff pyr samp key s (s + 1)).mpr (Or.inr (by omega))] at h
    cases h
  obtain ⟨σs, hσs⟩ : ∃ x, pyr.levels[s]? = some x :=
    ⟨_, List.getElem?_eq_getElem (by omega)⟩
  obtain ⟨σs1, hσs1⟩ : ∃ x, pyr.levels[s + 1]? = some x :=
    ⟨_, List.getElem?_eq_getElem hlt⟩
  rw [downsample_chunk_succ pyr samp key s σs σs1 hσs hσs1] at h
  injection h with h'
  exact ⟨σs, σs1, hlt, hσs, hσs1, h'.symm⟩

theorem apply_calls_append {n : Nat} {T Meta : Type} (samp : ChunkDownsampler n T) :
    ∀ (c1 c2 : List (DownsampleCall n)) (pyr : ChunkPyramid n T Meta),
      apply_downsample_calls samp (c1 ++ c2) pyr =
        (apply_downsample_calls samp c1 pyr).bind
          (fun p2 => apply_downsample_calls samp c2 p2) := by
  intro c1
  induction c1 with
  | nil =>
    intro c2 pyr
    rfl
  | cons c rest ih =>
    intro c2 pyr
    obtain ⟨key, s, d⟩ := c
    have e1 : apply_downsample_calls samp ((key, s, d) :: (rest ++ c2)) pyr =
        match downsample_chunk pyr samp key s d with
        | none => none
        | some p2 => apply_downsample_calls samp (rest ++ c2) p2 := rfl
    have e2 : apply_downsample_calls samp ((key, s, d) :: rest) pyr =
        match downsample_chunk pyr samp key s d with
        | none => none
        | some p2 => apply_downsample_calls samp rest p2 := rfl
    rw [show ((key, s, d) :: rest) ++ c2 = (key, s, d) :: (rest ++ c2) from rfl, e1, e2]
    rcases h : downsample_chunk pyr samp key s d with _ | p2
    · rfl
    · show apply_downsample_calls samp (rest ++ c2) p2 =
        (apply_downsample_calls samp rest p2).bind
          (fun p2 => apply_downsample_calls samp c2 p2)
      exact ih c2 p2

theorem apply_calls_length {n : Nat} {T Meta : Type} (samp : ChunkDownsampler n T) :
    ∀ (calls : List (DownsampleCall n)) (pyr p2 : ChunkPyramid n T Meta),
      apply_downsample_calls samp calls pyr = some p2 →
        p2.levels.length = pyr.levels.length := by
  intro calls
  induction calls with
  | nil =>
    intro pyr p2 h
    injection h with h'
    rw [h']
  | cons c rest ih =>
    intro pyr p2 h
    obtain ⟨key, s, d⟩ := c
    unfold apply_downsample_calls at h
    rcases hs : downsample_chunk pyr samp key s d with _ | pmid
    · rw [hs] at h
      cases h
    · rw [hs] at h
      rw [ih pmid p2 h, downsample_chunk_length pyr pmid samp key s d hs]

theorem set_chunk_keyseq {n : Nat} {T Meta : Type} (mp : ChunkMap n T Meta)
    (key : PointN n) (ch : Chunk n T Meta) :
    (mp.set_chunk key ch).chunks.map Prod.fst = mp.chunks.map Prod.fst := by
  show (mp.chunks.map _).map Prod.fst = _
  rw [List.map_map]
  apply List.map_congr_left
  intro kv hkv
  simp only [Function.comp_apply]
  by_cases h : kv.1 = key
  · rw [if_pos h]
    exact h.symm
  · rw [if_neg h]

/-- The chunk-key sequence of the destination store after one call: unchanged
when the destination chunk already existed, otherwise the new key is
prepended. -/
theorem downsample_step_keyseq {n : Nat} {T Meta : Type} (samp : ChunkDownsampler n T)
    (m : Fin n → Nat) (hm : ∀ i, m i ≤ 30) (key : PointN n)
    (srcm dstm : ChunkMap n T Meta) (hshape : srcm.chunk_shape = pshape n m) :
    ((dstm.chunks.lookup (DKp n m key)).isSome →
      (downsample_step samp key srcm dstm).chunks.map Prod.fst =
        dstm.chunks.map Prod.fst) ∧
    (dstm.chunks.lookup (DKp n m key) = none →
      (downsample_step samp key srcm dstm).chunks.map Prod.fst =
        DKp n m key :: dstm.chunks.map Prod.fst) := by
  rw [downsample_step_eq_stepArray samp m hm key srcm dstm hshape]
  constructor
  · intro hs
    rw [set_chunk_keyseq, gmoia_snd_chunks, if_pos hs]
  · intro hn
    rw [set_chunk_keyseq, gmoia_snd_chunks, if_neg (by rw [hn]; simp)]
    simp

/-- Everything one successful adjacent-level call does to the pyramid:
level count, level 0, and per-level configuration are preserved; structural
well-formedness is preserved; exactly the destination chunk appears; value
and metadata changes are confined to the call's write region; chunk-key
sequences change only by prepending the new destination key. -/
theorem step_facts {n : Nat} {T Meta : Type} (samp : ChunkDownsampler n T)
    (m : Fin n → Nat) (hm : ∀ i, m i ≤ 30)
    (pyr σ1 : ChunkPyramid n T Meta) (key : PointN n) (s : Nat)
    (hGood : Good n m pyr)
    (h : downsample_chunk pyr samp key s (s + 1) = some σ1) :
    σ1.levels.length = pyr.levels.length ∧
    σ1.levels[0]? = pyr.levels[0]? ∧
    (∀ (j : Nat) (a b : ChunkMap n T Meta), pyr.levels[j]? = some a →
      σ1.levels[j]? = some b →
      b.chunk_shape = a.chunk_shape ∧ b.ambient_value = a.ambient_value ∧
        b.default_chunk_metadata = a.default_chunk_metadata) ∧
    Good n m σ1 ∧
    (∀ (j : Nat) (a b : ChunkMap n T Meta), pyr.levels[j]? = some a →
      σ1.levels[j]? = some b → ∀ c : PointN n,
      ((b.chunks.lookup c).isSome ↔
        (a.chunks.lookup c).isSome ∨ (j = s + 1 ∧ c = DKp n m key))) ∧
    (∀ (j : Nat) (a b : ChunkMap n T Meta), pyr.levels[j]? = some a →
      σ1.levels[j]? = some b → ∀ (c : PointN n) (chA chB : Chunk n T Meta),
      a.chunks.lookup c = some chA → b.chunks.lookup c = some chB →
        chB.metadata = chA.metadata ∧
        ∀ p, chB.array.values p ≠ chA.array.values p →
          writeRegion n m (key, s, s + 1) j c p) ∧
    (∀ (j : Nat) (a b : ChunkMap n T Meta), pyr.levels[j]? = some a →
      σ1.levels[j]? = some b → ∀ (c : PointN n) (chB : Chunk n T Meta),
      a.chunks.lookup c = none → b.chunks.lookup c = some chB →
        chB.metadata = a.default_chunk_metadata ∧
        ∀ p, chB.array.values p ≠ a.ambient_value →
          writeRegion n m (key, s, s + 1) j c p) ∧
    (∀ (j : Nat) (a b : ChunkMap n T Meta), pyr.levels[j]? = some a →
      σ1.levels[j]? = some b →
      b.chunks.map Prod.fst = a.chunks.map Prod.fst ∨
        (j = s + 1 ∧ b.chunks.map Prod.fst = DKp n m key :: a.chunks.map Prod.fst ∧
          a.chunks.lookup (DKp n m key) = none)) := by
  obtain ⟨σs, σs1, hsL, hσs, hσs1, hform⟩ := downsample_chunk_succ_inv pyr σ1 samp key s h
  subst hform
  obtain ⟨hGshape, hGext, hGmul⟩ := hGood
  have hshσs : σs.chunk_shape = pshape n m := hGshape s σs hσs
  have hshσs1 : σs1.chunk_shape = pshape n m := hGshape (s + 1) σs1 hσs1
  have hextD : ∀ ch, σs1.chunks.lookup (DKp n m key) = some ch →
      ch.array.extent = ⟨DKp n m key, pshape n m⟩ :=
    fun ch hc => hGext (s + 1) σs1 (by omega) hσs1 (DKp n m key) ch hc
  obtain ⟨hO, chD, hLD, hMD, hED, hVD⟩ :=
    downsample_step_spec samp m hm key σs σs1 hshσs hshσs1 hextD
  have hF := downsample_step_fields samp m hm key σs σs1 hshσs
  have hKS := downsample_step_keyseq samp m hm key σs σs1 hshσs
  have hge : ∀ j : Nat, j ≠ s + 1 →
      (pyr.levels.set (s + 1) (downsample_step samp key σs σs1))[j]? = pyr.levels[j]? :=
    fun j hj => getElem?_set_ne _ _ _ _ hj
  have hgs1 : (pyr.levels.set (s + 1) (downsample_step samp key σs σs1))[s + 1]? =
      some (downsample_step samp key σs σs1) := getElem?_set_self _ _ _ hsL
  have hregion : ∀ p, InRegion n m key p →
      writeRegion n m (key, s, s + 1) (s + 1) (DKp n m key) p := by
    intro p hp
    unfold writeRegion
    exact ⟨rfl, rfl, hp.1, hp.2⟩
  refine ⟨by dsimp only; simp, ?_, ?_, ?_, ?_, ?_, ?_, ?_⟩
  · dsimp only
    rw [hge 0 (by omega)]
  · intro j a b hja hjb
    dsimp only at hjb
    by_cases hj : j = s + 1
    · subst hj
      rw [hσs1] at hja
      injection hja with hja'
      subst hja'
      rw [hgs1] at hjb
      injection hjb with hjb'
      subst hjb'
      exact hF
    · rw [hge j hj] at hjb
      rw [hja] at hjb
      injection hjb with hjb'
      subst hjb'
      exact ⟨rfl, rfl, rfl⟩
  · refine ⟨?_, ?_, ?_⟩
    · intro j a hja
      dsimp only at hja
      by_cases hj : j = s + 1
      · subst hj
        rw [hgs1] at hja
        injection hja with hja'
        subst hja'
        rw [hF.1, hshσs1]
      · rw [hge j hj] at hja
        exact hGshape j a hja
    · intro j a h1j hja c ch hch
      dsimp only at hja
      by_cases hj : j = s + 1
      · subst hj
        rw [hgs1] at hja
        injection hja with hja'
        subst hja'
        by_cases hc : c = DKp n m key
        · subst hc
          rw [hLD] at hch
          injection hch with hch'
          subst hch'
          exact hED
        · rw [hO c hc] at hch
          exact hGext (s + 1) σs1 (by omega) hσs1 c ch hch
      · rw [hge j hj] at hja
        exact hGext j a h1j hja c ch hch
    · intro j a h1j hja c hcs
      dsimp only at hja
      by_cases hj : j = s + 1
      · subst hj
        rw [hgs1] at hja
        injection hja with hja'
        subst hja'
        by_cases hc : c = DKp n m key
        · subst hc
          exact fun i => dkAx_dvd (m i) (key i)
        · rw [hO c hc] at hcs
          exact hGmul (s + 1) σs1 (by omega) hσs1 c hcs
      · rw [hge j hj] at hja
        exact hGmul j a h1j hja c hcs
  · intro j a b hja hjb c
    dsimp only at hjb
    by_cases hj : j = s + 1
    · subst hj
      rw [hσs1] at hja
      injection hja with hja'
      subst hja'
      rw [hgs1] at hjb
      injection hjb with hjb'
      subst hjb'
      by_cases hc : c = DKp n m key
      · subst hc
        rw [hLD]
        simp
      · rw [hO c hc]
        constructor
        · exact Or.inl
        · rintro (hx | ⟨-, hx⟩)
          · exact hx
          · exact absurd hx hc
    · rw [hge j hj] at hjb
      rw [hja] at hjb
      injection hjb with hjb'
      subst hjb'
      constructor
      · exact Or.inl
      · rintro (hx | ⟨hx, -⟩)
        · exact hx
        · exact absurd hx hj
  · intro j a b hja hjb c chA chB hlA hlB
    dsimp only at hjb
    by_cases hj : j = s + 1
    · subst hj
      rw [hσs1] at hja
      injection hja with hja'
      subst hja'
      rw [hgs1] at hjb
      injection hjb with hjb'
      subst hjb'
      by_cases hc : c = DKp n m key
      · subst hc
        rw [hLD] at hlB
        injection hlB with hlB'
        subst hlB'
        constructor
        · rw [hMD, hlA]
        · intro p hdv
          by_cases hpin : InRegion n m key p
          · exact hregion p hpin
          · rw [hVD p, if_neg hpin, hlA] at hdv
            exact absurd rfl hdv
      · rw [hO c hc] at hlB
        rw [hlA] at hlB
        injection hlB with hlB'
        subst hlB'
        exact ⟨rfl, fun p hdv => absurd rfl hdv⟩
    · rw [hge j hj] at hjb
      rw [hja] at hjb
      injection hjb with hjb'
      subst hjb'
      rw [hlA] at hlB
      injection hlB with hlB'
      subst hlB'
      exact ⟨rfl, fun p hdv => absurd rfl hdv⟩
  · intro j a b hja hjb c chB hlA hlB
    dsimp only at hjb
    by_cases hj : j = s + 1
    · subst hj
      rw [hσs1] at hja
      injection hja with hja'
      subst hja'
      rw [hgs1] at hjb
      injection hjb with hjb'
      subst hjb'
      by_cases hc : c = DKp n m key
      · subst hc
        rw [hLD] at hlB
        injection hlB with hlB'
        subst hlB'
        constructor
        · rw [hMD, hlA]
        · intro p hdv
          by_cases hpin : InRegion n m key p
          · exact hregion p hpin
          · rw [hVD p, if_neg hpin, hlA] at hdv
            exact absurd rfl hdv
      · rw [hO c hc] at hlB
        rw [hlA] at hlB
        cases hlB
    · rw [hge j hj] at hjb
      rw [hja] at hjb
      injection hjb with hjb'
      subst hjb'
      rw [hlA] at hlB
      cases hlB
  · intro j a b hja hjb
    dsimp only at hjb
    by_cases hj : j = s + 1
    · subst hj
      rw [hσs1] at hja
      injection hja with hja'
      subst hja'
      rw [hgs1] at hjb
      injection hjb with hjb'
      subst hjb'
      rcases hdk : σs1.chunks.lookup (DKp n m key) with _ | c0
      · exact Or.inr ⟨rfl, hKS.2 hdk, rfl⟩
      · exact Or.inl (hKS.1 (by rw [hdk]; rfl))
    · rw [hge j hj] at hjb
      rw [hja] at hjb
      injection hjb with hjb'
      subst hjb'
      exact Or.inl rfl

/-- What a whole run of calls does to the pyramid, accumulated from
`step_facts`: configuration, level 0 and well-formedness are preserved;
presence grows exactly by the calls' destination chunks; value and metadata
changes are confined to the calls' write regions. -/
theorem apply_calls_facts {n : Nat} {T Meta : Type} (samp : ChunkDownsampler n T)
    (m : Fin n → Nat) (hm : ∀ i, m i ≤ 30) :
    ∀ (calls : List (DownsampleCall n)) (σp σq : ChunkPyramid n T Meta),
      WFCalls n σp.levels.length calls →
      Good n m σp →
      apply_downsample_calls samp calls σp = some σq →
      σq.levels.length = σp.levels.length ∧
      σq.levels[0]? = σp.levels[0]? ∧
      (∀ (j : Nat) (a b : ChunkMap n T Meta), σp.levels[j]? = some a →
        σq.levels[j]? = some b →
        b.chunk_shape = a.chunk_shape ∧ b.ambient_value = a.ambient_value ∧
          b.default_chunk_metadata = a.default_chunk_metadata) ∧
      Good n m σq ∧
      (∀ (j : Nat) (a b : ChunkMap n T Meta), σp.levels[j]? = some a →
        σq.levels[j]? = some b → ∀ c : PointN n,
        ((b.chunks.lookup c).isSome ↔
          (a.chunks.lookup c).isSome ∨ FutureCreate n m calls j c)) ∧
      (∀ (j : Nat) (a b : ChunkMap n T Meta), σp.levels[j]? = some a →
        σq.levels[j]? = some b → ∀ (c : PointN n) (chA chB : Chunk n T Meta),
        a.chunks.lookup c = some chA → b.chunks.lookup c = some chB →
          chB.metadata = chA.metadata ∧
          ∀ p, chB.array.values p ≠ chA.array.values p →
            FutureWrite n m calls j c p) ∧
      (∀ (j : Nat) (a b : ChunkMap n T Meta), σp.levels[j]? = some a →
        σq.levels[j]? = some b → ∀ (c : PointN n) (chB : Chunk n T Meta),
        a.chunks.lookup c = none → b.chunks.lookup c = some chB →
          chB.metadata = a.default_chunk_metadata ∧
          ∀ p, chB.array.values p ≠ a.ambient_value →
            FutureWrite n m calls j c p) := by
  intro calls
  induction calls with
  | nil =>
    intro σp σq hWF hGood happ
    unfold apply_downsample_calls at happ
    injection happ with h'
    subst h'
    refine ⟨rfl, rfl, ?_, hGood, ?_, ?_, ?_⟩
    · intro j a b hja hjb
      rw [hja] at hjb
      injection hjb with e
      subst e
      exact ⟨rfl, rfl, rfl⟩
    · intro j a b hja hjb c
      rw [hja] at hjb
      injection hjb with e
      subst e
      constructor
      · exact Or.inl
      · rintro (hx | hx)
        · exact hx
        · unfold FutureCreate at hx
          obtain ⟨c2, hc2, -⟩ := hx
          cases hc2
    · intro j a b hja hjb c chA chB hlA hlB
      rw [hja] at hjb
      injection hjb with e
      subst e
      rw [hlA] at hlB
      injection hlB with e2
      subst e2
      exact ⟨rfl, fun p hdv => absurd rfl hdv⟩
    · intro j a b hja hjb c chB hlA hlB
      rw [hja] at hjb
      injection hjb with e
      subst e
      rw [hlA] at hlB
      cases hlB
  | cons c rest ih =>
    intro σp σq hWF hGood happ
    obtain ⟨key, s, d⟩ := c
    have hd : d = s + 1 := hWF.1
    subst hd
    unfold apply_downsample_calls at happ
    rcases hstep : downsample_chunk σp samp key s (s + 1) with _ | σ1
    · rw [hstep] at happ
      have happ3 : (none : Option (ChunkPyramid n T Meta)) = some σq := happ
      cases happ3
    · rw [hstep] at happ
      have happ2 : apply_downsample_calls samp rest σ1 = some σq := happ
      obtain ⟨SFlen, SF0, SFf, SFg, SFp, SFw, SFn, -⟩ :=
        step_facts samp m hm σp σ1 key s hGood hstep
      obtain ⟨IHlen, IH0, IHf, IHg, IHp, IHw, IHn⟩ :=
        ih σ1 σq (by rw [SFlen]; exact hWF.2.2.2.2) SFg happ2
      have hmid : ∀ (j : Nat) (a : ChunkMap n T Meta), σp.levels[j]? = some a →
          ∃ amid, σ1.levels[j]? = some amid := by
        intro j a hja
        have hjlt : j < σp.levels.length := by
          by_contra hge
          rw [List.getElem?_eq_none (by omega)] at hja
          cases hja
        exact ⟨_, List.getElem?_eq_getElem (by omega)⟩
      refine ⟨by rw [IHlen, SFlen], by rw [IH0, SF0], ?_, IHg, ?_, ?_, ?_⟩
      · intro j a b hja hjb
        obtain ⟨amid, hamid⟩ := hmid j a hja
        have h1 := SFf j a amid hja hamid
        have h2 := IHf j amid b hamid hjb
        exact ⟨by rw [h2.1, h1.1], by rw [h2.2.1, h1.2.1], by rw [h2.2.2, h1.2.2]⟩
      · intro j a b hja hjb c
        obtain ⟨amid, hamid⟩ := hmid j a hja
        have h1 := SFp j a amid hja hamid c
        have h2 := IHp j amid b hamid hjb c
        rw [futureCreate_cons]
        dsimp only
        constructor
        · intro hb
          rcases h2.mp hb with hmid2 | hfc
          · rcases h1.mp hmid2 with ha | hcre
            · exact Or.inl ha
            · exact Or.inr (Or.inl hcre)
          · exact Or.inr (Or.inr hfc)
        · rintro (ha | hcre | hfc)
          · exact h2.mpr (Or.inl (h1.mpr (Or.inl ha)))
          · exact h2.mpr (Or.inl (h1.mpr (Or.inr hcre)))
          · exact h2.mpr (Or.inr hfc)
      · intro j a b hja hjb c chA chB hlA hlB
        obtain ⟨amid, hamid⟩ := hmid j a hja
        have hmidsome : (amid.chunks.lookup c).isSome :=
          (SFp j a amid hja hamid c).mpr (Or.inl (by rw [hlA]; rfl))
        obtain ⟨chM, hlM⟩ := Option.isSome_iff_exists.mp hmidsome
        have h1 := SFw j a amid hja hamid c chA chM hlA hlM
        have h2 := IHw j amid b hamid hjb c chM chB hlM hlB
        refine ⟨by rw [h2.1, h1.1], ?_⟩
        intro p hdv
        by_cases hM : chM.array.values p = chA.array.values p
        · have hd2 : chB.array.values p ≠ chM.array.values p := by
            rw [hM]
            exact hdv
          exact (futureWrite_cons m _ rest j c p).mpr (Or.inr (h2.2 p hd2))
        · exact (futureWrite_cons m _ rest j c p).mpr (Or.inl (h1.2 p hM))
      · intro j a b hja hjb c chB hlA hlB
        obtain ⟨amid, hamid⟩ := hmid j a hja
        have hf := SFf j a amid hja hamid
        rcases hlM : amid.chunks.lookup c with _ | chM
        · have h2 := IHn j amid b hamid hjb c chB hlM hlB
          refine ⟨by rw [h2.1, hf.2.2], ?_⟩
          intro p hdv
          rw [← hf.2.1] at hdv
          exact (futureWrite_cons m _ rest j c p).mpr (Or.inr (h2.2 p hdv))
        · have h1 := SFn j a amid hja hamid c chM hlA hlM
          have h2 := IHw j amid b hamid hjb c chM chB hlM hlB
          refine ⟨by rw [h2.1, h1.1], ?_⟩
          intro p hdv
          by_cases hM : chM.array.values p = a.ambient_value
          · have hd2 : chB.array.values p ≠ chM.array.values p := by
              rw [hM]
              exact hdv
            exact (futureWrite_cons m _ rest j c p).mpr (Or.inr (h2.2 p hd2))
          · exact (futureWrite_cons m _ rest j c p).mpr (Or.inl (h1.2 p hM))

theorem lookup_none_iff_not_mem_keys {α β : Type} [DecidableEq α] :
    ∀ (l : List (α × β)) (c : α), l.lookup c = none ↔ c ∉ l.map Prod.fst := by
  intro l
  induction l with
  | nil =>
    intro c
    simp
  | cons kv rest ih =>
    intro c
    obtain ⟨k0, b0⟩ := kv
    rw [lookup_cons_ite]
    by_cases h : c = k0
    · subst h
      simp
    · rw [if_neg h, ih]
      simp [h]

/-- Two association lists with the same (duplicate-free) key sequence and
the same lookups are equal. -/
theorem assoc_ext {α β : Type} [DecidableEq α] :
    ∀ (l1 l2 : List (α × β)), l1.map Prod.fst = l2.map Prod.fst →
      (l1.map Prod.fst).Nodup →
      (∀ c, l1.lookup c = l2.lookup c) → l1 = l2 := by
  intro l1
  induction l1 with
  | nil =>
    intro l2 hk _ _
    cases l2 with
    | nil => rfl
    | cons kv r => simp at hk
  | cons kv r1 ih =>
    intro l2 hk hnd hlk
    obtain ⟨k0, b0⟩ := kv
    cases l2 with
    | nil => simp at hk
    | cons kv2 r2 =>
      obtain ⟨k2, b2⟩ := kv2
      simp only [List.map_cons] at hk
      injection hk with hk1 hk2s
      subst hk1
      have hb : b0 = b2 := by
        have hl0 := hlk k0
        rw [lookup_cons_ite, if_pos rfl, lookup_cons_ite, if_pos rfl] at hl0
        injection hl0
      subst hb
      simp only [List.map_cons, List.nodup_cons] at hnd
      have htl : ∀ c, r1.lookup c = r2.lookup c := by
        intro c
        by_cases hc : c = k0
        · subst hc
          have h1 : r1.lookup c = none := (lookup_none_iff_not_mem_keys r1 c).mpr hnd.1
          have h2 : r2.lookup c = none := by
            rw [lookup_none_iff_not_mem_keys, ← hk2s]
            exact hnd.1
          rw [h1, h2]
        · have hlc := hlk c
          rw [lookup_cons_ite, if_neg hc, lookup_cons_ite, if_neg hc] at hlc
          exact hlc
      rw [ih r2 hk2s hnd.2 htl]

theorem chunk_ext {n : Nat} {T Meta : Type} (c1 c2 : Chunk n T Meta)
    (h1 : c1.metadata = c2.metadata) (h2 : c1.array.extent = c2.array.extent)
    (h3 : ∀ p, c1.array.values p = c2.array.values p) : c1 = c2 := by
  obtain ⟨m1, a1⟩ := c1
  obtain ⟨e1, v1⟩ := a1
  obtain ⟨m2, a2⟩ := c2
  obtain ⟨e2, v2⟩ := a2
  dsimp only at h1 h2 h3
  subst h1
  subst h2
  have hv : v1 = v2 := funext h3
  subst hv
  rfl

/-- When every call's destination chunk already exists, a run never inserts:
every level keeps its chunk-key sequence. -/
theorem apply_calls_keyseq {n : Nat} {T Meta : Type} (samp : ChunkDownsampler n T)
    (m : Fin n → Nat) (hm : ∀ i, m i ≤ 30) :
    ∀ (calls : List (DownsampleCall n)) (τp τq : ChunkPyramid n T Meta),
      WFCalls n τp.levels.length calls →
      Good n m τp →
      (∀ call ∈ calls, ∀ b : ChunkMap n T Meta, τp.levels[call.2.2]? = some b →
        (b.chunks.lookup (DKp n m call.1)).isSome) →
      apply_downsample_calls samp calls τp = some τq →
      ∀ (j : Nat) (a b : ChunkMap n T Meta), τp.levels[j]? = some a →
        τq.levels[j]? = some b →
        b.chunks.map Prod.fst = a.chunks.map Prod.fst := by
  intro calls
  induction calls with
  | nil =>
    intro τp τq hWF hGood htgt happ j a b hja hjb
    unfold apply_downsample_calls at happ
    injection happ with h'
    subst h'
    rw [hja] at hjb
    injection hjb with e
    subst e
    rfl
  | cons c rest ih =>
    intro τp τq hWF hGood htgt happ j a b hja hjb
    obtain ⟨key, s, d⟩ := c
    have hd : d = s + 1 := hWF.1
    subst hd
    unfold apply_downsample_calls at happ
    rcases hstep : downsample_chunk τp samp key s (s + 1) with _ | τ1
    · rw [hstep] at happ
      have happ3 : (none : Option (ChunkPyramid n T Meta)) = some τq := happ
      cases happ3
    · rw [hstep] at happ
      have happ2 : apply_downsample_calls samp rest τ1 = some τq := happ
      obtain ⟨SFlen, SF0, SFf, SFg, SFp, SFw, SFn, SFk⟩ :=
        step_facts samp m hm τp τ1 key s hGood hstep
      have hthead := htgt (key, s, s + 1) (List.mem_cons_self _ _)
      have hkeystep : ∀ (j2 : Nat) (a2 b2 : ChunkMap n T Meta), τp.levels[j2]? = some a2 →
          τ1.levels[j2]? = some b2 →
          b2.chunks.map Prod.fst = a2.chunks.map Prod.fst := by
        intro j2 a2 b2 hja2 hjb2
        rcases SFk j2 a2 b2 hja2 hjb2 with hsame | ⟨hj2, hcons, hnone⟩
        · exact hsame
        · subst hj2
          have hpres := hthead a2 hja2
          rw [hnone] at hpres
          cases hpres
      have htgt2 : ∀ call ∈ rest, ∀ b2 : ChunkMap n T Meta,
          τ1.levels[call.2.2]? = some b2 →
          (b2.chunks.lookup (DKp n m call.1)).isSome := by
        intro call hmem b2 hjb2
        have hlt : call.2.2 < τ1.levels.length := by
          by_contra hge
          rw [List.getElem?_eq_none (by omega)] at hjb2
          cases hjb2
        obtain ⟨a2, hja2⟩ : ∃ a2, τp.levels[call.2.2]? = some a2 :=
          ⟨_, List.getElem?_eq_getElem (by omega)⟩
        have hpa := htgt call (List.mem_cons_of_mem _ hmem) a2 hja2
        exact (SFp call.2.2 a2 b2 hja2 hjb2 (DKp n m call.1)).mpr (Or.inl hpa)
      have hlt : j < τp.levels.length := by
        by_contra hge
        rw [List.getElem?_eq_none (by omega)] at hja
        cases hja
      obtain ⟨amid, hamid⟩ : ∃ amid, τ1.levels[j]? = some amid :=
        ⟨_, List.getElem?_eq_getElem (by omega)⟩
      rw [ih τ1 τq (by rw [SFlen]; exact hWF.2.2.2.2) SFg htgt2 happ2 j amid b hamid hjb]
      exact hkeystep j a amid hja hamid

/-- A run preserves duplicate-freeness of every level's chunk keys. -/
theorem apply_calls_nodup {n : Nat} {T Meta : Type} (samp : ChunkDownsampler n T)
    (m : Fin n → Nat) (hm : ∀ i, m i ≤ 30) :
    ∀ (calls : List (DownsampleCall n)) (σp σq : ChunkPyramid n T Meta),
      WFCalls n σp.levels.length calls →
      Good n m σp →
      (∀ (j : Nat) (a : ChunkMap n T Meta), σp.levels[j]? = some a →
        (a.chunks.map Prod.fst).Nodup) →
      apply_downsample_calls samp calls σp = some σq →
      ∀ (j : Nat) (b : ChunkMap n T Meta), σq.levels[j]? = some b →
        (b.chunks.map Prod.fst).Nodup := by
  intro calls
  induction calls with
  | nil =>
    intro σp σq hWF hGood hnd happ j b hjb
    unfold apply_downsample_calls at happ
    injection happ with h'
    subst h'
    exact hnd j b hjb
  | cons c rest ih =>
    intro σp σq hWF hGood hnd happ j b hjb
    obtain ⟨key, s, d⟩ := c
    have hd : d = s + 1 := hWF.1
    subst hd
    unfold apply_downsample_calls at happ
    rcases hstep : downsample_chunk σp samp key s (s + 1) with _ | σ1
    · rw [hstep] at happ
      have happ3 : (none : Option (ChunkPyramid n T Meta)) = some σq := happ
      cases happ3
    · rw [hstep] at happ
      have happ2 : apply_downsample_calls samp rest σ1 = some σq := happ
      obtain ⟨SFlen, SF0, SFf, SFg, SFp, SFw, SFn, SFk⟩ :=
        step_facts samp m hm σp σ1 key s hGood hstep
      have hnd2 : ∀ (j2 : Nat) (b2 : ChunkMap n T Meta), σ1.levels[j2]? = some b2 →
          (b2.chunks.map Prod.fst).Nodup := by
        intro j2 b2 hjb2
        have hlt : j2 < σ1.levels.length := by
          by_contra hge
          rw [List.getElem?_eq_none (by omega)] at hjb2
          cases hjb2
        obtain ⟨a2, hja2⟩ : ∃ a2, σp.levels[j2]? = some a2 :=
          ⟨_, List.getElem?_eq_getElem (by omega)⟩
        rcases SFk j2 a2 b2 hja2 hjb2 with hsame | ⟨-, hcons, hnone⟩
        · rw [hsame]
          exact hnd j2 a2 hja2
        · rw [hcons]
          exact List.nodup_cons.mpr
            ⟨(lookup_none_iff_not_mem_keys a2.chunks (DKp n m key)).mp hnone,
              hnd j2 a2 hja2⟩
      exact ih σ1 σq (by rw [SFlen]; exact hWF.2.2.2.2) SFg hnd2 happ2 j b hjb

/-- One column of calls, followed by a well-formed tail that is empty or a
new column, is well-formed. -/
theorem wf_column {n : Nat} (L : Nat) :
    ∀ (k j : Nat) (y : PointN n) (tail : List (DownsampleCall n)),
      j + k + 1 = L → (∀ i, 0 ≤ y i) →
      WFCalls n L tail →
      (tail = [] ∨ ∃ k2 r2, tail = (k2, (0 : Nat), (1 : Nat)) :: r2) →
      WFCalls n L (all_lods_calls n (List.range' (j + 1) k) y ++ tail) := by
  intro k
  induction k with
  | zero =>
    intro j y tail hL hy hWFt htsh
    exact hWFt
  | succ k ihk =>
    intro j y tail hL hy hWFt htsh
    show WFCalls n L ((y, j + 1 - 1, j + 1) ::
      (all_lods_calls n (List.range' (j + 2) k) (psar n y 1) ++ tail))
    rw [show j + 1 - 1 = j from by omega]
    refine ⟨rfl, by omega, hy, ?_,
      ihk (j + 1) (psar n y 1) tail (by omega) (psar_nonneg n y 1 hy) hWFt htsh⟩
    cases k with
    | zero =>
      rcases htsh with ht | ⟨k2, r2, ht⟩
      · exact Or.inl (by rw [ht]; rfl)
      · exact Or.inr (Or.inr ⟨k2, r2, by rw [ht]; rfl⟩)
    | succ k2 =>
      refine Or.inr (Or.inl ⟨all_lods_calls n (List.range' (j + 3) k2)
        (psar n (psar n y 1) 1) ++ tail, ?_⟩)
      show (psar n y 1, j + 2 - 1, j + 2) ::
          (all_lods_calls n (List.range' (j + 3) k2) (psar n (psar n y 1) 1) ++ tail) = _
      rw [show j + 2 - 1 = j + 1 from by omega]

/-- Every non-final call of a column has its successor later in the list. -/
theorem hm_column {n : Nat} (L : Nat) :
    ∀ (k j : Nat) (y : PointN n) (tail : List (DownsampleCall n)),
      j + k + 1 = L → HasMaskers n L tail →
      HasMaskers n L (all_lods_calls n (List.range' (j + 1) k) y ++ tail) := by
  intro k
  induction k with
  | zero =>
    intro j y tail hL hHMt
    exact hHMt
  | succ k ihk =>
    intro j y tail hL hHMt
    show HasMaskers n L ((y, j + 1 - 1, j + 1) ::
      (all_lods_calls n (List.range' (j + 2) k) (psar n y 1) ++ tail))
    rw [show j + 1 - 1 = j from by omega]
    refine ⟨?_, ihk (j + 1) (psar n y 1) tail (by omega) hHMt⟩
    intro hcond
    have hcond2 : j + 1 + 1 < L := hcond
    cases k with
    | zero => exact absurd hcond2 (by omega)
    | succ k2 =>
      have hhead : all_lods_calls n (List.range' (j + 2) (k2 + 1)) (psar n y 1) ++ tail =
          (psar n y 1, j + 2 - 1, j + 2) ::
            (all_lods_calls n (List.range' (j + 3) k2) (psar n (psar n y 1) 1) ++ tail) := rfl
      rw [hhead, show j + 2 - 1 = j + 1 from by omega]
      exact List.mem_cons_self _ _

/-- The full traversal call list is empty or starts a fresh column. -/
theorem columns_calls_shape {n L : Nat} :
    ∀ keys : List (PointN n), columns_calls n L keys = [] ∨
      ∃ y r, columns_calls n L keys = (y, (0 : Nat), (1 : Nat)) :: r := by
  intro keys
  induction keys with
  | nil => exact Or.inl rfl
  | cons y rest ih =>
    have he : columns_calls n L (y :: rest) =
        all_lods_calls n (List.range' 1 (L % 256 - 1)) y ++ columns_calls n L rest := rfl
    rw [he]
    rcases hk : L % 256 - 1 with _ | k
    · rcases ih with h | ⟨y2, r2, h⟩
      · exact Or.inl (by rw [h]; rfl)
      · exact Or.inr ⟨y2, r2, by rw [h]; rfl⟩
    · exact Or.inr ⟨y, all_lods_calls n (List.range' 2 k) (psar n y 1) ++
        columns_calls n L rest, rfl⟩

/-- The full traversal call list over a pyramid of `L ≤ 255` levels is
well-formed. -/
theorem wf_columns {n : Nat} (L : Nat) (hL1 : 1 ≤ L) (hL255 : L ≤ 255) :
    ∀ keys : List (PointN n), (∀ y ∈ keys, ∀ i, 0 ≤ y i) →
      WFCalls n L (columns_calls n L keys) := by
  intro keys
  induction keys with
  | nil =>
    intro _
    trivial
  | cons y rest ih =>
    intro hk
    have hmod : L % 256 = L := Nat.mod_eq_of_lt (by omega)
    have he : columns_calls n L (y :: rest) =
        all_lods_calls n (List.range' (0 + 1) (L % 256 - 1)) y ++
          columns_calls n L rest := rfl
    rw [he]
    refine wf_column L (L % 256 - 1) 0 y (columns_calls n L rest) (by omega)
      (hk y (List.mem_cons_self _ _))
      (ih (fun y2 hy2 => hk y2 (List.mem_cons_of_mem _ hy2))) ?_
    exact columns_calls_shape rest

/-- The full traversal call list has all its maskers. -/
theorem hm_columns {n : Nat} (L : Nat) (hL1 : 1 ≤ L) (hL255 : L ≤ 255) :
    ∀ keys : List (PointN n), HasMaskers n L (columns_calls n L keys) := by
  intro keys
  induction keys with
  | nil => trivial
  | cons y rest ih =>
    have hmod : L % 256 = L := Nat.mod_eq_of_lt (by omega)
    have he : columns_calls n L (y :: rest) =
        all_lods_calls n (List.range' (0 + 1) (L % 256 - 1)) y ++
          columns_calls n L rest := rfl
    rw [he]
    exact hm_column L (L % 256 - 1) 0 y (columns_calls n L rest) (by omega) ih

/-- The extent traversal is the flat list of per-column calls. -/
theorem extent_aux_eq_apply {n : Nat} {T Meta : Type} (samp : ChunkDownsampler n T) :
    ∀ (keys : List (PointN n)) (pyr : ChunkPyramid n T Meta),
      downsample_extent_aux samp keys pyr =
        apply_downsample_calls samp (columns_calls n pyr.levels.length keys) pyr := by
  intro keys
  induction keys with
  | nil =>
    intro pyr
    rfl
  | cons y rest ih =>
    intro pyr
    have he : columns_calls n pyr.levels.length (y :: rest) =
        all_lods_calls n (List.range' 1 (pyr.levels.length % 256 - 1)) y ++
          columns_calls n pyr.levels.length rest := rfl
    rw [he, apply_calls_append]
    have h1 : downsample_extent_aux samp (y :: rest) pyr =
        match downsample_chunk_all_lods pyr samp y with
        | none => none
        | some p2 => downsample_extent_aux samp rest p2 := rfl
    rw [h1]
    have h2 : downsample_chunk_all_lods pyr samp y =
        apply_downsample_calls samp
          (all_lods_calls n (List.range' 1 (pyr.levels.length % 256 - 1)) y) pyr := by
      unfold downsample_chunk_all_lods
      exact all_lods_aux_eq_apply samp _ y pyr
    rw [← h2]
    rcases h3 : downsample_chunk_all_lods pyr samp y with _ | p2
    · rfl
    · show downsample_extent_aux samp rest p2 =
        apply_downsample_calls samp (columns_calls n pyr.levels.length rest) p2
      rw [ih p2, downsample_chunk_all_lods_length pyr p2 samp y h3]

theorem intRange_mem_ge (lo hi x : Int) (h : x ∈ intRange lo hi) : lo ≤ x := by
  unfold intRange at h
  obtain ⟨j, hj, hx⟩ := List.mem_map.mp h
  subst hx
  have hj0 : 0 ≤ j := by
    simp only [List.pure_def, List.bind_eq_flatMap, List.mem_flatMap] at hj
    obtain ⟨a, ha, hja⟩ := hj
    simp at hja
    omega
  omega

theorem boxPoints_mem_ge : ∀ (n : Nat) (lo hi q : PointN n),
    q ∈ boxPoints n lo hi → ∀ i, lo i ≤ q i := by
  intro n
  induction n with
  | zero =>
    intro lo hi q hq i
    exact i.elim0
  | succ n ihn =>
    intro lo hi q hq i
    unfold boxPoints at hq
    obtain ⟨x, hx, hq2⟩ := List.mem_flatMap.mp hq
    obtain ⟨q', hq', he⟩ := List.mem_map.mp hq2
    subst he
    rcases Fin.eq_zero_or_eq_succ i with h0 | ⟨i', hi'⟩
    · subst h0
      rw [Fin.cons_zero]
      exact intRange_mem_ge _ _ x hx
    · subst hi'
      rw [Fin.cons_succ]
      exact ihn (Fin.tail lo) (Fin.tail hi) q' hq' i'

/-- Every chunk key the traversal enumerates over an extent with
non-negative minimum is component-wise non-negative. -/
theorem chunk_keys_nonneg {n : Nat} (m : Fin n → Nat) (e : ExtentN n)
    (hmin : ∀ i, 0 ≤ e.minimum i) :
    ∀ y ∈ chunk_keys_for_extent n (pshape n m) e, ∀ i, 0 ≤ y i := by
  intro y hy i
  unfold chunk_keys_for_extent at hy
  obtain ⟨q, hq, he⟩ := List.mem_map.mp hy
  subst he
  have hlo := boxPoints_mem_ge n _ _ q hq i
  have hp : (0 : Int) ≤ pshape n m i := by
    show (0 : Int) ≤ 2 ^ m i
    positivity
  have h0 : (0 : Int) ≤ Int.fdiv (e.minimum i) (pshape n m i) := by
    rw [Int.fdiv_eq_ediv _ hp]
    exact Int.ediv_nonneg (hmin i) hp
  show (0 : Int) ≤ q i * pshape n m i
  exact mul_nonneg (le_trans h0 hlo) hp

theorem foldl_min_nonneg : ∀ (l : List Int) (a : Int), 0 ≤ a → (∀ x ∈ l, 0 ≤ x) →
    0 ≤ l.foldl min a := by
  intro l
  induction l with
  | nil =>
    intro a ha _
    exact ha
  | cons x xs ih =>
    intro a ha hl
    show 0 ≤ xs.foldl min (min a x)
    exact ih (min a x) (le_min ha (hl x (List.mem_cons_self _ _)))
      (fun z hz => hl z (List.mem_cons_of_mem _ hz))

/-- The bounding extent of a store whose chunk keys are non-negative has a
non-negative minimum. -/
theorem bounding_extent_min_nonneg {n : Nat} {T Meta : Type} (mp : ChunkMap n T Meta)
    (be : ExtentN n) (h : mp.bounding_extent = some be)
    (hk : ∀ kv ∈ mp.chunks, ∀ i, 0 ≤ kv.1 i) :
    ∀ i, 0 ≤ be.minimum i := by
  unfold ChunkMap.bounding_extent at h
  rcases hc : mp.chunks with _ | ⟨⟨k, ch⟩, rest⟩
  · rw [hc] at h
    cases h
  · rw [hc] at h
    injection h with h'
    subst h'
    intro i
    show (0 : Int) ≤ ((k :: rest.map Prod.fst).map (fun p => p i)).foldl min (k i)
    apply foldl_min_nonneg
    · exact hk (k, ch) (by rw [hc]; exact List.mem_cons_self _ _) i
    · intro x hx
      obtain ⟨p, hp, he⟩ := List.mem_map.mp hx
      subst he
      rcases List.mem_cons.mp hp with h0 | hmem
      · rw [h0]
        exact hk (k, ch) (by rw [hc]; exact List.mem_cons_self _ _) i
      · obtain ⟨kv, hkv, he2⟩ := List.mem_map.mp hmem
        subst he2
        exact hk kv (by rw [hc]; exact List.mem_cons_of_mem _ hkv) i

theorem isSome_eq_some_getD {α : Type} (o : Option α) (d : α) (h : o.isSome) :
    o = some (o.getD d) := by
  rcases o with _ | v
  · cases h
  · rfl

theorem chunkmap_ext {n : Nat} {T Meta : Type} (m1 m2 : ChunkMap n T Meta)
    (h1 : m1.chunk_shape = m2.chunk_shape) (h2 : m1.ambient_value = m2.ambient_value)
    (h3 : m1.default_chunk_metadata = m2.default_chunk_metadata)
    (h4 : m1.chunks = m2.chunks) : m1 = m2 := by
  obtain ⟨s1, a1, d1, c1⟩ := m1
  obtain ⟨s2, a2, d2, c2⟩ := m2
  dsimp only at h1 h2 h3 h4
  subst h1
  subst h2
  subst h3
  subst h4
  rfl

/-- C8 (amended): on a pyramid whose levels share a power-of-two chunk
shape `2^m` (each `m i ≤ 30` so the shape is a positive `i32`), whose
above-level-0 chunks are canonical (extent `[key, key + 2^m)`, keys aligned
to the shape, no duplicate keys), and whose LOD-0 chunk keys are
component-wise non-negative, `downsample_entire_map_all_lods` with a
block-confined downsampler is idempotent: running it again from the
produced pyramid reproduces that pyramid exactly.  (Without the
non-negativity of the LOD-0 keys the source's misaligned `>> 1` source-key
traversal breaks idempotence — see the counterexample.) -/
theorem downsample_entire_map_idempotent {n : Nat} {T Meta : Type}
    (samp : ChunkDownsampler n T) (m : Fin n → Nat) (pyr q : ChunkPyramid n T Meta)
    (hsamp : samp.BlockConfined)
    (hm : ∀ i, m i ≤ 30)
    (hlen255 : pyr.levels.length ≤ 255)
    (hshape : ∀ (j : Nat) (a : ChunkMap n T Meta), pyr.levels[j]? = some a →
      a.chunk_shape = pshape n m)
    (hext : ∀ (j : Nat) (a : ChunkMap n T Meta), 1 ≤ j → pyr.levels[j]? = some a →
      ∀ c ch, a.chunks.lookup c = some ch → ch.array.extent = ⟨c, pshape n m⟩)
    (hmul : ∀ (j : Nat) (a : ChunkMap n T Meta), 1 ≤ j → pyr.levels[j]? = some a →
      ∀ c, (a.chunks.lookup c).isSome → ∀ i, (2 : Int) ^ m i ∣ c i)
    (hnodup : ∀ (j : Nat) (a : ChunkMap n T Meta), pyr.levels[j]? = some a →
      (a.chunks.map Prod.fst).Nodup)
    (hkeys0 : ∀ a : ChunkMap n T Meta, pyr.levels[0]? = some a →
      ∀ kv ∈ a.chunks, ∀ i, 0 ≤ kv.1 i)
    (h1 : downsample_entire_map_all_lods pyr samp = some q) :
    downsample_entire_map_all_lods q samp = some q := by
  unfold downsample_entire_map_all_lods at h1
  rcases h0 : pyr.levels[0]? with _ | l0
  · rw [h0] at h1
    cases h1
  rw [h0] at h1
  dsimp only at h1
  rcases hbe : l0.bounding_extent with _ | be
  · rw [hbe] at h1
    cases h1
  rw [hbe] at h1
  unfold downsample_chunks_for_extent_all_lods at h1
  rw [h0] at h1
  have h1x : downsample_extent_aux samp
      (chunk_keys_for_extent n l0.chunk_shape be) pyr = some q := h1
  have hL0 : 0 < pyr.levels.length := by
    by_contra hz
    rw [List.getElem?_eq_none (by omega)] at h0
    cases h0
  have hshl0 : l0.chunk_shape = pshape n m := hshape 0 l0 h0
  have happ1 : apply_downsample_calls samp
      (columns_calls n pyr.levels.length (chunk_keys_for_extent n l0.chunk_shape be))
      pyr = some q := by
    rw [← extent_aux_eq_apply samp _ pyr]
    exact h1x
  have hknn : ∀ y ∈ chunk_keys_for_extent n l0.chunk_shape be, ∀ i, 0 ≤ y i := by
    rw [hshl0]
    exact chunk_keys_nonneg m be (bounding_extent_min_nonneg l0 be hbe (hkeys0 l0 h0))
  have hWF : WFCalls n pyr.levels.length
      (columns_calls n pyr.levels.length (chunk_keys_for_extent n l0.chunk_shape be)) :=
    wf_columns pyr.levels.length hL0 hlen255 _ hknn
  have hHM : HasMaskers n pyr.levels.length
      (columns_calls n pyr.levels.length (chunk_keys_for_extent n l0.chunk_shape be)) :=
    hm_columns pyr.levels.length hL0 hlen255 _
  have hGoodInit : Good n m pyr := ⟨hshape, hext, hmul⟩
  obtain ⟨R1len, R10, R1f, R1g, R1p, R1w, R1n⟩ :=
    apply_calls_facts samp m hm _ pyr q hWF hGoodInit happ1
  have hRel0 : Rel n T Meta m
      (columns_calls n pyr.levels.length (chunk_keys_for_extent n l0.chunk_shape be))
      pyr q := by
    refine ⟨R1len, R10, R1f, hshape, hext, R1g.2.1, hmul,
      fun j a b h1j hja hjb c => R1p j a b hja hjb c,
      fun j a b h1j hja hjb => R1w j a b hja hjb,
      fun j a b h1j hja hjb => R1n j a b hja hjb, ?_⟩
    intro key2 s2 r2 hcalls h1s2 halign a hja
    rcases @columns_calls_shape n pyr.levels.length
        (chunk_keys_for_extent n l0.chunk_shape be) with hsh | ⟨y2, r2x, hsh⟩
    · rw [hsh] at hcalls
      cases hcalls
    · rw [hsh] at hcalls
      injection hcalls with hhead htail
      have hs20 : (0 : Nat) = s2 := congrArg Prod.fst (congrArg Prod.snd hhead)
      omega
  obtain ⟨τq, happ2, hRelF⟩ := rel_run samp hsamp m hm _ pyr q q hWF hHM hRel0 happ1
  have htgtq : ∀ call ∈ columns_calls n pyr.levels.length
      (chunk_keys_for_extent n l0.chunk_shape be),
      ∀ b : ChunkMap n T Meta, q.levels[call.2.2]? = some b →
        (b.chunks.lookup (DKp n m call.1)).isSome := by
    intro call hmem b hjb
    obtain ⟨key2, s2, d2⟩ := call
    dsimp only at hjb
    have hlt : d2 < q.levels.length := by
      by_contra hge
      rw [List.getElem?_eq_none (by omega)] at hjb
      cases hjb
    obtain ⟨a2, hja2⟩ : ∃ a2, pyr.levels[d2]? = some a2 :=
      ⟨_, List.getElem?_eq_getElem (by omega)⟩
    refine (R1p d2 a2 b hja2 hjb (DKp n m key2)).mpr (Or.inr ?_)
    unfold FutureCreate
    exact ⟨(key2, s2, d2), hmem, rfl, rfl⟩
  have hKSq := apply_calls_keyseq samp m hm _ q τq
    (by rw [R1len]; exact hWF) R1g htgtq happ2
  have hNDq := apply_calls_nodup samp m hm _ pyr q hWF hGoodInit hnodup happ1
  have hext_lists : τq.levels = q.levels := by
    apply List.ext_getElem?
    intro j
    rcases hq : q.levels[j]? with _ | bq
    · have hgeq : q.levels.length ≤ j := by
        by_contra hlt2
        rw [List.getElem?_eq_getElem (by omega)] at hq
        cases hq
      rw [List.getElem?_eq_none (by rw [hRelF.len]; omega)]
    · have hjlt : j < q.levels.length := by
        by_contra hge
        rw [List.getElem?_eq_none (by omega)] at hq
        cases hq
      obtain ⟨bτ, hbτ⟩ : ∃ x, τq.levels[j]? = some x :=
        ⟨_, List.getElem?_eq_getElem (by rw [hRelF.len]; omega)⟩
      rw [hbτ]
      rcases Nat.eq_zero_or_pos j with hj0 | hj1
      · subst hj0
        have hlv := hRelF.lev0
        rw [hbτ, hq] at hlv
        exact hlv
      · congr 1
        have hf := hRelF.fields j bq bτ hq hbτ
        have hkeysj := hKSq j bq bτ hq hbτ
        have hndj := hNDq j bq hq
        have hlook : ∀ c, bτ.chunks.lookup c = bq.chunks.lookup c := by
          intro c
          rcases hcq : bq.chunks.lookup c with _ | chq
          · rcases hcτ : bτ.chunks.lookup c with _ | chτ2
            · rfl
            · have hp2 := (hRelF.pres j bq bτ hj1 hq hbτ c).mp (by rw [hcτ]; rfl)
              rcases hp2 with hx | hx
              · rw [hcq] at hx
                cases hx
              · unfold FutureCreate at hx
                obtain ⟨c2, hc2, -⟩ := hx
                cases hc2
          · have hs2 : (bτ.chunks.lookup c).isSome :=
              (hRelF.pres j bq bτ hj1 hq hbτ c).mpr (Or.inl (by rw [hcq]; rfl))
            obtain ⟨chτ2, hcτ⟩ := Option.isSome_iff_exists.mp hs2
            rw [hcτ]
            have hcom := hRelF.common j bq bτ hj1 hq hbτ c chq chτ2 hcq hcτ
            have hchunk : chτ2 = chq := by
              refine chunk_ext chτ2 chq hcom.1 ?_ ?_
              · rw [hRelF.extτ j bτ hj1 hbτ c chτ2 hcτ,
                  hRelF.extσ j bq hj1 hq c chq hcq]
              · intro p
                by_contra hne
                have hfw := hcom.2 p hne
                unfold FutureWrite at hfw
                obtain ⟨c2, hc2, -⟩ := hfw
                cases hc2
            rw [hchunk]
        exact chunkmap_ext bτ bq hf.1 hf.2.1 hf.2.2
          (assoc_ext bτ.chunks bq.chunks hkeysj (by rw [hkeysj]; exact hndj) hlook)
  have heq : τq = q := by
    cases τq
    cases q
    dsimp only at hext_lists
    rw [hext_lists]
  have hq0 : q.levels[0]? = some l0 := by
    rw [R10]
    exact h0
  have e1 : downsample_entire_map_all_lods q samp =
      downsample_chunks_for_extent_all_lods q samp be := by
    unfold downsample_entire_map_all_lods
    rw [hq0]
    dsimp only
    rw [hbe]
  have e2 : downsample_chunks_for_extent_all_lods q samp be =
      downsample_extent_aux samp (chunk_keys_for_extent n l0.chunk_shape be) q := by
    unfold downsample_chunks_for_extent_all_lods
    rw [hq0]
  rw [e1, e2, extent_aux_eq_apply samp _ q, R1len, happ2, heq]

/-- Witness for the amended C8 theorem on a concrete two-level pyramid with
one LOD-0 chunk: the first whole-map downsample succeeds, and a second run
reproduces its result exactly. -/
theorem downsample_entire_map_idempotent_witness :
    (downsample_entire_map_all_lods idPyr idSamp).isSome ∧
    downsample_entire_map_all_lods
        ((downsample_entire_map_all_lods idPyr idSamp).getD idPyr) idSamp =
      some ((downsample_entire_map_all_lods idPyr idSamp).getD idPyr) := by
  have hs : (downsample_entire_map_all_lods idPyr idSamp).isSome := by decide
  have hj2 : ∀ (j : Nat) (a : ChunkMap 1 Int Unit), idPyr.levels[j]? = some a →
      (j = 0 ∧ a = idL0) ∨ (j = 1 ∧ a = idL1) := by
    intro j a hja
    rcases j with _ | _ | j
    · injection hja with e
      exact Or.inl ⟨rfl, e.symm⟩
    · injection hja with e
      exact Or.inr ⟨rfl, e.symm⟩
    · rw [List.getElem?_eq_none (show idPyr.levels.length ≤ j + 2 from by
        show 2 ≤ j + 2
        omega)] at hja
      cases hja
  refine ⟨hs, downsample_entire_map_idempotent idSamp (fun _ => 1) idPyr _
    ?_ ?_ ?_ ?_ ?_ ?_ ?_ ?_ (isSome_eq_some_getD _ idPyr hs)⟩
  · intro d f g h
    exact h (pzero 1) (fun i => ⟨le_refl 0, by show (0 : Int) < 2 ^ d; positivity⟩)
  · intro i
    show (1 : Nat) ≤ 30
    decide
  · decide
  · intro j a hja
    rcases hj2 j a hja with ⟨-, rfl⟩ | ⟨-, rfl⟩
    · decide
    · decide
  · intro j a h1j hja c ch hch
    rcases hj2 j a hja with ⟨rfl, rfl⟩ | ⟨-, rfl⟩
    · exact absurd h1j (by omega)
    · simp [idL1, ChunkMap.get_mut_chunk] at hch
  · intro j a h1j hja c hcs
    rcases hj2 j a hja with ⟨rfl, rfl⟩ | ⟨-, rfl⟩
    · exact absurd h1j (by omega)
    · simp [idL1] at hcs
  · intro j a hja
    rcases hj2 j a hja with ⟨-, rfl⟩ | ⟨-, rfl⟩
    · decide
    · decide
  · intro a hja kv hkv i
    injection hja with e
    rw [← e] at hkv
    rcases List.mem_cons.mp hkv with h | h
    · rw [h]
      exact le_refl 0
    · cases h

end BuildingBlocks
